import Mathlib

/-!
Verification development for the dependency-graph builder in `src/parser.ts`
(class `DependencyParser`): file discovery (`scanDirectory`), import
extraction and filtering (`extractImports`), multi-strategy specifier
resolution (`resolveImportPath`), graph assembly (`parse`) and cycle
annotation (`detectCircularDependencies`).

The embedding models the Node.js `path` module for absolute POSIX paths,
the filesystem as a snapshot (directory tree, file/directory predicates and
per-file readable content), and a file's text content by the list of its
raw import specifiers as the AST walk extracts them (the compiler API used
by `extractImports` is an external dependency; the post-extraction
filtering and resolution loop is embedded faithfully).

String operations are implemented over the character lists underlying
`String`, so that every definition evaluates by kernel reduction on
concrete inputs.
-/

/-- Split a character list at every occurrence of `sep` (the semantics of
`String.splitOn` with a one-character separator). -/
def chSplit (sep : Char) : List Char → List (List Char)
  | [] => [[]]
  | c :: cs =>
    match chSplit sep cs with
    | [] => [[c]]
    | g :: gs => if c = sep then [] :: g :: gs else (c :: g) :: gs

/-- Join character-list chunks with `sep` between them. -/
def chJoin (sep : Char) : List (List Char) → List Char
  | [] => []
  | [g] => g
  | g :: g' :: gs => g ++ sep :: chJoin sep (g' :: gs)

/-- `s.split(sep)` over strings. -/
def strSplit (s : String) (sep : Char) : List String :=
  (chSplit sep s.data).map (fun cs => String.mk cs)

/-- Interleave strings with a one-character separator. -/
def strJoin (sep : Char) (parts : List String) : String :=
  String.mk (chJoin sep (parts.map String.data))

/-- `s.startsWith(pre)`. -/
def strStarts (s pre : String) : Bool :=
  pre.data.isPrefixOf s.data

/-- `s.endsWith(suf)`. -/
def strEnds (s suf : String) : Bool :=
  suf.data.reverse.isPrefixOf s.data.reverse

/-- `s.includes(c)` for a one-character needle. -/
def strHasChar (s : String) (c : Char) : Bool :=
  s.data.contains c

/-- The length of a string in characters. -/
def strLen (s : String) : Nat :=
  s.data.length

/-- Drop the first `n` characters. -/
def strDrop (s : String) (n : Nat) : String :=
  String.mk (s.data.drop n)

/-- Drop the last `n` characters. -/
def strDropRight (s : String) (n : Nat) : String :=
  String.mk (s.data.take (s.data.length - n))

/-- Path segments of a POSIX path string: split on `/`, dropping empty
segments (leading `/`, doubled separators). -/
def splitSegs (p : String) : List String :=
  (strSplit p '/').filter (fun s => s ≠ "")

/-- Segment-level normalization as done by Node's `path` for absolute
paths: `.` is dropped, `..` pops the previous segment (at the root it is
dropped). -/
def normSegs (segs : List String) : List String :=
  segs.foldl
    (fun acc seg =>
      if seg = "." then acc
      else if seg = ".." then acc.dropLast
      else acc ++ [seg]) []

/-- Rebuild an absolute path string from segments. -/
def absOfSegs (segs : List String) : String :=
  "/" ++ strJoin '/' segs

/-- `path.join(base, p)` for an absolute `base`: concatenate and
normalize. -/
def joinAbs (base p : String) : String :=
  absOfSegs (normSegs (splitSegs base ++ splitSegs p))

/-- `path.resolve(dir, p)` for an absolute `dir`: an absolute `p` is
normalized on its own, otherwise `p` is resolved against `dir`. -/
def pathResolve (dir p : String) : String :=
  if strStarts p "/" then absOfSegs (normSegs (splitSegs p)) else joinAbs dir p

/-- `path.dirname` for an absolute path. -/
def dirname (p : String) : String :=
  absOfSegs (splitSegs p).dropLast

/-- `path.basename` for an absolute path. -/
def basename (p : String) : String :=
  ((splitSegs p).getLast?).getD ""

/-- Strip the longest shared leading run of two segment lists. -/
def dropSharedLead : List String → List String → List String × List String
  | a :: as, b :: bs => if a = b then dropSharedLead as bs else (a :: as, b :: bs)
  | as, bs => (as, bs)

/-- `path.relative(fromP, toP)` for absolute paths: drop the common lead,
then climb with `..` for what remains of `fromP` and descend into the rest
of `toP`. -/
def pathRelative (fromP toP : String) : String :=
  let pr := dropSharedLead (normSegs (splitSegs fromP)) (normSegs (splitSegs toP))
  strJoin '/' (pr.1.map (fun _ => "..") ++ pr.2)

/-- `path.extname` of a bare entry name: the substring from the final dot,
except when the dot starts the name. -/
def extname (name : String) : String :=
  match strSplit name '.' with
  | [] => ""
  | [_] => ""
  | first :: rest =>
    if first = "" ∧ rest.length = 1 then ""
    else "." ++ (rest.getLast?).getD ""

/-- A directory listing of the snapshot, as seen through
`fs.readdirSync(dir, { withFileTypes: true })`: a sequence of file and
directory entries, each directory carrying its own listing. (The listing
sequence is built into the inductive so that the scanner is structurally
recursive.) -/
inductive FsListing where
  | done
  | fileE (name : String) (rest : FsListing)
  | dirE (name : String) (sub : FsListing) (rest : FsListing)

/-- Filesystem snapshot: the root directory listing (what `scanDirectory`
walks), the `fs.existsSync` / `fs.statSync(..).isFile()` predicates used
during resolution, and per-file readable content. A file's content is
modelled by the list of raw import specifiers the TypeScript AST walk of
`extractImports` collects from its text; `contents f = none` models a
`fs.readFileSync` failure (e.g. the file was deleted between the passes). -/
structure Fs where
  root : FsListing
  isFile : String → Bool
  isDir : String → Bool
  contents : String → Option (List String)

/-- `fs.existsSync`. -/
def existsSync (fs : Fs) (p : String) : Bool :=
  fs.isFile p || fs.isDir p

/-- The parser settings after the constructor has filled the defaults
(`Required<ParserSettings>` plus the `tsConfigBaseUrl` field loaded from
`tsconfig.json`; `""` models the unset base URL, which is falsy in the
source). Patterns are modelled by their `RegExp.test` behaviour. -/
structure ParserSettings where
  excludePatterns : List (String → Bool)
  includePatterns : List (String → Bool)
  rootDir : String
  extensions : List String
  showFullPath : Bool
  pathAliases : List (String × List String)
  tsConfigBaseUrl : String

/-- `DependencyParser.shouldExclude`. -/
def shouldExclude (s : ParserSettings) (filePath : String) : Bool :=
  s.excludePatterns.any (fun pattern => pattern filePath)

/-- `DependencyParser.shouldInclude`. -/
def shouldInclude (s : ParserSettings) (filePath : String) : Bool :=
  if s.includePatterns.length = 0 then true
  else s.includePatterns.any (fun pattern => pattern filePath)

/-- `DependencyParser.scanDirectory`: walk the listing of `dirPath`,
pruning `node_modules`/`.git`/`dist`, keeping files whose extension is
configured and whose root-relative path passes the exclude/include
patterns, in listing order. -/
def scanEntries (s : ParserSettings) (dirPath : String) : FsListing → List String
  | .done => []
  | .dirE name sub rest =>
    (if name = "node_modules" ∨ name = ".git" ∨ name = "dist" then []
     else scanEntries s (joinAbs dirPath name) sub) ++ scanEntries s dirPath rest
  | .fileE name rest =>
    (if s.extensions.contains (extname name) then
      (if ¬shouldExclude s (pathRelative s.rootDir (joinAbs dirPath name)) ∧
          shouldInclude s (pathRelative s.rootDir (joinAbs dirPath name)) then
        [joinAbs dirPath name]
      else [])
     else []) ++ scanEntries s dirPath rest

/-- `scanDirectory(this.settings.rootDir)` as invoked by `parse`. -/
def scanRoot (fs : Fs) (s : ParserSettings) : List String :=
  scanEntries s s.rootDir fs.root

/-- The alias key with a trailing `*` (optionally preceded by `/`)
removed: `alias.replace(/\/?\*$/, "")` in `extractImports`. -/
def stripAliasStar (aliasKey : String) : String :=
  if strEnds aliasKey "/*" then strDropRight aliasKey 2
  else if strEnds aliasKey "*" then strDropRight aliasKey 1
  else aliasKey

/-- The `isPathAlias` test of `extractImports`: the specifier starts with
`@`, or it equals a configured alias key with its wildcard stripped, or it
extends such a key by a `/`-separated suffix. -/
def isPathAlias (s : ParserSettings) (importPath : String) : Bool :=
  strStarts importPath "@" ||
    s.pathAliases.any (fun a =>
      importPath == stripAliasStar a.1 ||
        strStarts importPath (stripAliasStar a.1 ++ "/"))

/-- The skip condition of the `extractImports` loop: a specifier that is
not a path alias, not relative, not absolute and has no internal `/` is
treated as an npm package and dropped. -/
def skipAsExternal (s : ParserSettings) (importPath : String) : Bool :=
  !isPathAlias s importPath &&
    !strStarts importPath "." &&
    !strStarts importPath "/" &&
    !strHasChar importPath '/'

/-- Matching of one wildcard alias pattern against a specifier, as done by
the anchored regular expression `resolveImportPath` builds from the alias
(the captured group of the single `*`). Returns the capture on a match. -/
def wildMatch (aliasKey importPath : String) : Option String :=
  match strSplit aliasKey '*' with
  | [pre, suf] =>
    if strStarts importPath pre ∧ strEnds importPath suf ∧
        strLen pre + strLen suf ≤ strLen importPath then
      some (strDropRight (strDrop importPath (strLen pre)) (strLen suf))
    else none
  | _ => none

/-- `aliasCapture`: the match step of the alias loop in
`resolveImportPath`. A key containing `*` matches through its regular
expression; an exact key matches only the identical specifier (capturing
the empty string). -/
def aliasCapture (aliasKey importPath : String) : Option String :=
  if strHasChar aliasKey '*' then wildMatch aliasKey importPath
  else if importPath == aliasKey then some "" else none

/-- `replacement.replace("*", resolvedPart)`: JavaScript `replace` with a
string pattern substitutes only the first occurrence. -/
def replaceFirstStar (rep part : String) : String :=
  match strSplit rep '*' with
  | [] => rep
  | [_] => rep
  | x :: y :: rest => x ++ part ++ strJoin '*' (y :: rest)

/-- The replacement-template instantiation of the alias loop: substitute
the capture for `*` when the template has one, else use it verbatim. -/
def substStar (rep part : String) : String :=
  if strHasChar rep '*' then replaceFirstStar rep part else rep

/-- The `for (const ext of this.settings.extensions)` probe used at every
resolution site: the first configured extension whose addition yields an
existing path wins, and the result is made root-relative. -/
def tryWithExtensions (fs : Fs) (s : ParserSettings) (base : String) : Option String :=
  s.extensions.findSome? (fun ext =>
    if existsSync fs (base ++ ext) then some (pathRelative s.rootDir (base ++ ext))
    else none)

/-- The bare-path probe: the path without any extension, accepted only
when it exists and is a file. -/
def tryBareFile (fs : Fs) (s : ParserSettings) (base : String) : Option String :=
  if existsSync fs base ∧ fs.isFile base then some (pathRelative s.rootDir base)
  else none

/-- The `index` probe: `path.join(base, "index")` with each configured
extension. -/
def tryIndexFiles (fs : Fs) (s : ParserSettings) (base : String) : Option String :=
  tryWithExtensions fs s (joinAbs base "index")

/-- The three-step probe (extensions, then bare file, then index files)
performed by `resolveImportPath` at each candidate base path. -/
def probeBase (fs : Fs) (s : ParserSettings) (base : String) : Option String :=
  (tryWithExtensions fs s base).orElse (fun _ =>
    (tryBareFile fs s base).orElse (fun _ => tryIndexFiles fs s base))

/-- The base directory used by the alias strategy:
`this.tsConfigBaseUrl || this.settings.rootDir`. -/
def aliasBase (s : ParserSettings) : String :=
  if s.tsConfigBaseUrl ≠ "" then s.tsConfigBaseUrl else s.rootDir

/-- `DependencyParser.resolveImportPath`: relative specifiers resolve
against the importing file's directory; all other specifiers go through
the alias table, then the `tsconfig` base URL, then the root and
`root/src` fallbacks, each candidate base probed in the three-step order.
`none` is the `null` not-found classification. -/
def resolveImportPath (fs : Fs) (s : ParserSettings) (importPath fromFile : String) :
    Option String :=
  if strStarts importPath "." then
    probeBase fs s (pathResolve (dirname fromFile) importPath)
  else
    (s.pathAliases.findSome? (fun a =>
      match aliasCapture a.1 importPath with
      | none => none
      | some part =>
        a.2.findSome? (fun rep =>
          probeBase fs s (joinAbs (aliasBase s) (substStar rep part))))).orElse
    (fun _ =>
      (if s.tsConfigBaseUrl ≠ "" then
        probeBase fs s (joinAbs s.tsConfigBaseUrl importPath)
      else none).orElse
      (fun _ =>
        [joinAbs s.rootDir importPath,
         joinAbs (joinAbs s.rootDir "src") importPath].findSome?
          (fun base => probeBase fs s base)))

/-- The probe of `tryWithExtensions`, returning the absolute path that was
found instead of its root-relative form. -/
def tryWithExtensionsAbs (fs : Fs) (s : ParserSettings) (base : String) : Option String :=
  s.extensions.findSome? (fun ext =>
    if existsSync fs (base ++ ext) then some (base ++ ext) else none)

/-- The bare-path probe, returning the absolute path found. -/
def tryBareFileAbs (fs : Fs) (s : ParserSettings) (base : String) : Option String :=
  if existsSync fs base ∧ fs.isFile base then some base else none

/-- The `index` probe, returning the absolute path found. -/
def tryIndexFilesAbs (fs : Fs) (s : ParserSettings) (base : String) : Option String :=
  tryWithExtensionsAbs fs s (joinAbs base "index")

/-- The three-step probe, returning the absolute path found. -/
def probeBaseAbs (fs : Fs) (s : ParserSettings) (base : String) : Option String :=
  (tryWithExtensionsAbs fs s base).orElse (fun _ =>
    (tryBareFileAbs fs s base).orElse (fun _ => tryIndexFilesAbs fs s base))

/-- `resolveImportPath` instrumented to return the absolute path of the
file each successful probe found, before it is made root-relative. -/
def resolveImportPathAbs (fs : Fs) (s : ParserSettings) (importPath fromFile : String) :
    Option String :=
  if strStarts importPath "." then
    probeBaseAbs fs s (pathResolve (dirname fromFile) importPath)
  else
    (s.pathAliases.findSome? (fun a =>
      match aliasCapture a.1 importPath with
      | none => none
      | some part =>
        a.2.findSome? (fun rep =>
          probeBaseAbs fs s (joinAbs (aliasBase s) (substStar rep part))))).orElse
    (fun _ =>
      (if s.tsConfigBaseUrl ≠ "" then
        probeBaseAbs fs s (joinAbs s.tsConfigBaseUrl importPath)
      else none).orElse
      (fun _ =>
        [joinAbs s.rootDir importPath,
         joinAbs (joinAbs s.rootDir "src") importPath].findSome?
          (fun base => probeBaseAbs fs s base)))

/-- Insertion-ordered deduplication: the semantics of collecting into a
JavaScript `Set` and spreading it back into an array. -/
def dedupFirst (l : List String) : List String :=
  l.foldl (fun acc x => if x ∈ acc then acc else acc ++ [x]) []

/-- One step of the classification loop of `extractImports`: external bare
specifiers are skipped, the rest are resolved and recorded as resolved or
unresolved. -/
def extractStep (fs : Fs) (s : ParserSettings) (filePath : String)
    (acc : List String × List String) (importPath : String) :
    List String × List String :=
  if skipAsExternal s importPath then acc
  else
    match resolveImportPath fs s importPath filePath with
    | some resolvedPath => (acc.1 ++ [resolvedPath], acc.2)
    | none => (acc.1, acc.2 ++ [importPath])

/-- `DependencyParser.extractImports` from the collected raw specifier
set: classify every specifier, and return the deduplicated resolved and
unresolved lists. -/
def extractImports (fs : Fs) (s : ParserSettings) (specs : List String)
    (filePath : String) : List String × List String :=
  let r := (dedupFirst specs).foldl (extractStep fs s filePath) ([], [])
  (dedupFirst r.1, dedupFirst r.2)

deriving instance DecidableEq for Except

/-- `DependencyNode` of `parser.ts`. `unresolvedImports` is the optional
diagnostic field, absent (`none`) until assigned. -/
structure DependencyNode where
  id : String
  name : String
  displayName : String
  fullPath : String
  imports : List String
  importedBy : List String
  unresolvedImports : Option (List String)
deriving DecidableEq

/-- One edge record; `circular` is `false` until the detector sets it
(the source leaves the flag absent, which reads as falsy). -/
structure DependencyEdge where
  source : String
  target : String
  circular : Bool
deriving DecidableEq

/-- `DependencyGraph`: the node `Map` modelled as an insertion-ordered
association list, plus the edge array. -/
structure DependencyGraph where
  nodes : List (String × DependencyNode)
  edges : List DependencyEdge
deriving DecidableEq

/-- `Map.get`. -/
def mapGet (m : List (String × DependencyNode)) (k : String) : Option DependencyNode :=
  (m.find? (fun p => p.1 == k)).map (fun p => p.2)

/-- `Map.has`. -/
def mapHas (m : List (String × DependencyNode)) (k : String) : Bool :=
  m.any (fun p => p.1 == k)

/-- `Map.set`: overwrite in place when the key exists (keeping its
insertion position), append otherwise. -/
def mapSet : List (String × DependencyNode) → String → DependencyNode →
    List (String × DependencyNode)
  | [], k, v => [(k, v)]
  | p :: rest, k, v => if p.1 = k then (k, v) :: rest else p :: mapSet rest k v

/-- The graph held by a freshly constructed `DependencyParser`
(`nodes: new Map(), edges: []`). -/
def freshGraph : DependencyGraph :=
  { nodes := [], edges := [] }

/-- The node built for a discovered file in Pass 1 of `parse`. -/
def buildNode (s : ParserSettings) (file : String) : DependencyNode :=
  let relativePath := pathRelative s.rootDir file
  { id := relativePath
    name := basename file
    displayName := if s.showFullPath then relativePath else basename file
    fullPath := file
    imports := []
    importedBy := []
    unresolvedImports := none }

/-- Pass 1 of `parse`: register one fresh node per scanned file, keyed by
its root-relative path. -/
def pass1 (s : ParserSettings) (files : List String)
    (nodes : List (String × DependencyNode)) : List (String × DependencyNode) :=
  files.foldl (fun m file => mapSet m (pathRelative s.rootDir file) (buildNode s file)) nodes

/-- The inner loop of Pass 2: for each surviving import, push the
importing file onto the target's `importedBy` and append an edge. -/
def attachEdges (relativePath : String) (imps : List String) (g : DependencyGraph) :
    DependencyGraph :=
  imps.foldl
    (fun g importPath =>
      match mapGet g.nodes importPath with
      | none => g
      | some targetNode =>
        { nodes := mapSet g.nodes importPath
            { targetNode with importedBy := targetNode.importedBy ++ [relativePath] }
          edges := g.edges ++ [{ source := relativePath, target := importPath, circular := false }] })
    g

/-- One file of Pass 2 of `parse`: read the file (a failed read throws,
modelled as `Except.error` carrying the file path), extract and classify
its imports, keep resolved targets that are neither excluded nor outside
the node map, record diagnostics, then attach the edges. -/
def pass2Step (fs : Fs) (s : ParserSettings) (g : DependencyGraph) (file : String) :
    Except String DependencyGraph :=
  match fs.contents file with
  | none => .error file
  | some specs =>
    let relativePath := pathRelative s.rootDir file
    let r := extractImports fs s specs file
    match mapGet g.nodes relativePath with
    | none => .ok g
    | some node =>
      let imps := r.1.filter (fun imp => ¬shouldExclude s imp ∧ mapHas g.nodes imp)
      let node1 := { node with
        imports := imps
        unresolvedImports := if r.2.length > 0 then some r.2 else node.unresolvedImports }
      .ok (attachEdges relativePath imps { g with nodes := mapSet g.nodes relativePath node1 })

/-- The running state of `detectCircularDependencies`: the `visited` and
`recursionStack` sets and the recorded circular pairs (the
`"source->target"` keys, modelled as pairs). -/
structure CycleState where
  visited : List String
  recursionStack : List String
  circularPairs : List (String × String)
deriving DecidableEq

/-- `Set.add`: a no-op when the element is present. -/
def setAdd (x : String) (l : List String) : List String :=
  if x ∈ l then l else x :: l

/-- `Set.add` for recorded pairs. -/
def pairAdd (x : String × String) (l : List (String × String)) : List (String × String) :=
  if x ∈ l then l else x :: l

/-- The `for (let i = cycleStart; i < path.length; i++)` loop: record each
consecutive pair of the path suffix starting at `cycleStart`, closing the
cycle back to `path[cycleStart]`. -/
def markCyclePairs (path : List String) (cycleStart : Nat)
    (pairs : List (String × String)) : List (String × String) :=
  (List.range' cycleStart (path.length - cycleStart)).foldl
    (fun ps i =>
      pairAdd (path.getD i "",
        if i = path.length - 1 then path.getD cycleStart "" else path.getD (i + 1) "")
        ps)
    pairs

/-- The recursive `dfs` closure of `detectCircularDependencies`, with a
fuel argument standing in for the call stack (any fuel at least the node
count makes every reachable call run its body, matching the source's
unbounded recursion). The current `path` is threaded functionally: the
source copies it on every recursive call. -/
def dfsVisit (g : DependencyGraph) : Nat → String → List String → CycleState → CycleState
  | 0, _, _, st => st
  | fuel + 1, nodeId, path, st =>
    let st1 : CycleState :=
      { st with visited := setAdd nodeId st.visited
                recursionStack := setAdd nodeId st.recursionStack }
    let path1 := path ++ [nodeId]
    let st2 :=
      match mapGet g.nodes nodeId with
      | none => st1
      | some node =>
        node.imports.foldl
          (fun acc importId =>
            if importId ∈ acc.visited then
              if importId ∈ acc.recursionStack then
                match path1.findIdx? (fun x => x == importId) with
                | some cycleStart =>
                  { acc with circularPairs := markCyclePairs path1 cycleStart acc.circularPairs }
                | none => acc
              else acc
            else dfsVisit g fuel importId path1 acc)
          st1
    { st2 with recursionStack := st2.recursionStack.erase nodeId }

/-- The root loop of `detectCircularDependencies`: start a DFS from every
node not yet visited, in node-map insertion order. -/
def cycleScan (g : DependencyGraph) : CycleState :=
  g.nodes.foldl
    (fun st p => if p.1 ∈ st.visited then st else dfsVisit g (g.nodes.length + 1) p.1 [] st)
    { visited := [], recursionStack := [], circularPairs := [] }

/-- `detectCircularDependencies`: run the DFS from every root, then set
`circular` on every edge whose `(source, target)` pair was recorded. -/
def detectCircularDependencies (g : DependencyGraph) : DependencyGraph :=
  let pairs := (cycleScan g).circularPairs
  { g with edges := g.edges.map (fun e =>
      if (e.source, e.target) ∈ pairs then { e with circular := true } else e) }

/-- `DependencyParser.parse` as a transformer of the instance's graph
state (`this.graph`, which the constructor initializes to `freshGraph`):
scan, Pass 1, Pass 2 (a read failure propagates as `Except.error`), then
cycle detection. -/
def parse (g0 : DependencyGraph) (fs : Fs) (s : ParserSettings) :
    Except String DependencyGraph :=
  let files := scanRoot fs s
  let g1 := { g0 with nodes := pass1 s files g0.nodes }
  (files.foldlM (pass2Step fs s) g1).map detectCircularDependencies

/-- `Except.isOk` as a boolean. -/
def exceptIsOk (r : Except String DependencyGraph) : Bool :=
  match r with
  | .ok _ => true
  | .error _ => false

/-- The loop body of the `dfs` closure over a node's imports (the
functional form of the `for (const importId of node.imports)` loop). -/
def dfsFold (g : DependencyGraph) (fuel : Nat) (path1 : List String) :
    CycleState → String → CycleState :=
  fun acc importId =>
    if importId ∈ acc.visited then
      if importId ∈ acc.recursionStack then
        match path1.findIdx? (fun x => x == importId) with
        | some cycleStart =>
          { acc with circularPairs := markCyclePairs path1 cycleStart acc.circularPairs }
        | none => acc
      else acc
    else dfsVisit g fuel importId path1 acc

/-- All ways of inserting an element into a list. -/
def insertEverywhere (x : α) : List α → List (List α)
  | [] => [[x]]
  | y :: ys => (x :: y :: ys) :: (insertEverywhere x ys).map (fun zs => y :: zs)

/-- All permutations of a list, by iterated insertion (structurally
recursive, so it evaluates by kernel reduction). -/
def permsL : List α → List (List α)
  | [] => [[]]
  | x :: xs => (permsL xs).flatMap (insertEverywhere x)

/-- The snapshot with the specifier `ip` deleted from the extracted
content of file `f` (used to state that a dropped specifier leaves the
whole build unchanged). -/
def dropSpecFs (fs : Fs) (f ip : String) : Fs :=
  { fs with contents := fun p =>
      if p == f then (fs.contents p).map (List.filter (fun x => x != ip))
      else fs.contents p }

/-- Pass 1's display-name choice applied to an already built node:
the root-relative id when `showFullPath` is set, the bare filename
otherwise. -/
def nodeRelabel (b : Bool) (n : DependencyNode) : DependencyNode :=
  { n with displayName := if b then n.id else n.name }

/-- Relabel every node of a graph with `nodeRelabel`. -/
def setDisplays (b : Bool) (g : DependencyGraph) : DependencyGraph :=
  { g with nodes := g.nodes.map (fun p => (p.1, nodeRelabel b p.2)) }

/-- Modelled from the spec (§4.2): the first successful attempt of an
ordered list wins. -/
def firstHit (l : List (Option String)) : Option String :=
  l.findSome? id

/-- Modelled from the spec (§4.2): the in-strategy probe order as an
explicit attempt list — exact-file-with-extension for each configured
extension in order, then the bare path only if it exists and is a file,
then `index`-with-extension. -/
def specProbe (fs : Fs) (s : ParserSettings) (base : String) : Option String :=
  firstHit
    [s.extensions.findSome? (fun ext =>
      if existsSync fs (base ++ ext) then some (pathRelative s.rootDir (base ++ ext))
      else none),
     if existsSync fs base ∧ fs.isFile base then some (pathRelative s.rootDir base)
     else none,
     s.extensions.findSome? (fun ext =>
      if existsSync fs (joinAbs base "index" ++ ext) then
        some (pathRelative s.rootDir (joinAbs base "index" ++ ext))
      else none)]

/-- Modelled from the spec (§4.2, strategy 1): relative resolution,
applicable exactly to `.`-leading specifiers. -/
def relativeStrategy (fs : Fs) (s : ParserSettings) (ip fromFile : String) : Option String :=
  if strStarts ip "." then specProbe fs s (pathResolve (dirname fromFile) ip) else none

/-- Modelled from the spec (§4.2, strategy 2): alias matching over the
table in order, each alias's replacement templates in order, joined
against the configured base directory. -/
def aliasStrategy (fs : Fs) (s : ParserSettings) (ip : String) : Option String :=
  if strStarts ip "." then none
  else
    s.pathAliases.findSome? (fun a =>
      match aliasCapture a.1 ip with
      | none => none
      | some part =>
        a.2.findSome? (fun rep =>
          specProbe fs s (joinAbs (aliasBase s) (substStar rep part))))

/-- Modelled from the spec (§4.2, strategy 3): base-directory-relative
joining, when a base directory is configured. -/
def baseUrlStrategy (fs : Fs) (s : ParserSettings) (ip : String) : Option String :=
  if strStarts ip "." then none
  else if s.tsConfigBaseUrl ≠ "" then specProbe fs s (joinAbs s.tsConfigBaseUrl ip)
  else none

/-- Modelled from the spec (§4.2, strategy 4): the root and `root/src`
fallbacks. -/
def rootFallbackStrategy (fs : Fs) (s : ParserSettings) (ip : String) : Option String :=
  if strStarts ip "." then none
  else
    firstHit
      ([joinAbs s.rootDir ip, joinAbs (joinAbs s.rootDir "src") ip].map (specProbe fs s))

/-- Modelled from the spec (§4.2): the whole resolver as the fixed
priority order of the four strategies, first success winning. -/
def resolveByStrategies (fs : Fs) (s : ParserSettings) (ip fromFile : String) :
    Option String :=
  firstHit
    [relativeStrategy fs s ip fromFile,
     aliasStrategy fs s ip,
     baseUrlStrategy fs s ip,
     rootFallbackStrategy fs s ip]

/-- A project with an aliased library file: `src/a.ts` imports
`src/lib/common.ts` through the `@/*` alias, `src/b.ts` through a
relative specifier (and `src/a.ts` relatively); `react` is an external
package. -/
def sAlias : ParserSettings :=
  { excludePatterns := [], includePatterns := [], rootDir := "/p",
    extensions := [".ts", ".tsx", ".js", ".jsx"], showFullPath := true,
    pathAliases := [("@/*", ["src/*"])], tsConfigBaseUrl := "" }

/-- The snapshot for `sAlias`. -/
def fsAlias : Fs :=
  { root := .dirE "src" (.fileE "a.ts" (.fileE "b.ts"
      (.dirE "lib" (.fileE "common.ts" .done) .done))) .done
    isFile := fun p => ["/p/src/a.ts", "/p/src/b.ts", "/p/src/lib/common.ts"].contains p
    isDir := fun p => ["/p", "/p/src", "/p/src/lib"].contains p
    contents := fun p =>
      if p = "/p/src/a.ts" then some ["@/lib/common", "react"]
      else if p = "/p/src/b.ts" then some ["./lib/common", "./a"]
      else if p = "/p/src/lib/common.ts" then some []
      else none }

/-- The graph `parse` builds from `fsAlias`. -/
def gAlias : DependencyGraph :=
  { nodes := [("src/a.ts",
      { id := "src/a.ts", name := "a.ts", displayName := "src/a.ts",
        fullPath := "/p/src/a.ts", imports := ["src/lib/common.ts"],
        importedBy := ["src/b.ts"], unresolvedImports := none }),
     ("src/b.ts",
      { id := "src/b.ts", name := "b.ts", displayName := "src/b.ts",
        fullPath := "/p/src/b.ts", imports := ["src/lib/common.ts", "src/a.ts"],
        importedBy := [], unresolvedImports := none }),
     ("src/lib/common.ts",
      { id := "src/lib/common.ts", name := "common.ts", displayName := "src/lib/common.ts",
        fullPath := "/p/src/lib/common.ts", imports := [],
        importedBy := ["src/a.ts", "src/b.ts"], unresolvedImports := none })]
    edges := [{ source := "src/a.ts", target := "src/lib/common.ts", circular := false },
      { source := "src/b.ts", target := "src/lib/common.ts", circular := false },
      { source := "src/b.ts", target := "src/a.ts", circular := false }] }

/-- A one-file project whose only file imports itself (twice, to exercise
specifier deduplication). -/
def sSelf : ParserSettings :=
  { excludePatterns := [], includePatterns := [], rootDir := "/r",
    extensions := [".ts"], showFullPath := true, pathAliases := [], tsConfigBaseUrl := "" }

/-- The snapshot for `sSelf`. -/
def fsSelf : Fs :=
  { root := .fileE "a.ts" .done
    isFile := fun p => p = "/r/a.ts"
    isDir := fun p => p = "/r"
    contents := fun p => if p = "/r/a.ts" then some ["./a", "./a"] else none }

/-- The graph `parse` builds from `fsSelf`. -/
def gSelf : DependencyGraph :=
  { nodes := [("a.ts",
      { id := "a.ts", name := "a.ts", displayName := "a.ts", fullPath := "/r/a.ts",
        imports := ["a.ts"], importedBy := ["a.ts"], unresolvedImports := none })]
    edges := [{ source := "a.ts", target := "a.ts", circular := true }] }

/-- A two-file project in which `b.ts` exists on disk but its Pass-2 read
fails (deleted between the passes). -/
def sRead : ParserSettings :=
  { excludePatterns := [], includePatterns := [], rootDir := "/r",
    extensions := [".ts"], showFullPath := true, pathAliases := [], tsConfigBaseUrl := "" }

/-- The snapshot for `sRead`: `a.ts` is readable, `b.ts` is not. -/
def fsRead : Fs :=
  { root := .fileE "a.ts" (.fileE "b.ts" .done)
    isFile := fun p => p = "/r/a.ts" ∨ p = "/r/b.ts"
    isDir := fun p => p = "/r"
    contents := fun p => if p = "/r/a.ts" then some [] else none }

/-- A one-file project whose file imports the bare specifier `@foo`,
which matches no configured alias. -/
def fsAt : Fs :=
  { root := .fileE "a.ts" .done
    isFile := fun p => p = "/r/a.ts"
    isDir := fun p => p = "/r"
    contents := fun p => if p = "/r/a.ts" then some ["@foo"] else none }

/-- A project whose triangle `c.ts → q.ts → r.ts → c.ts` overlaps the
cycle `c.ts → x.ts → r.ts → c.ts`, plus an acyclic `s.ts → c.ts`. -/
def sTri : ParserSettings :=
  { excludePatterns := [], includePatterns := [], rootDir := "/r",
    extensions := [".ts"], showFullPath := true, pathAliases := [], tsConfigBaseUrl := "" }

/-- The snapshot for `sTri`. -/
def fsTri : Fs :=
  { root := .fileE "c.ts" (.fileE "q.ts" (.fileE "r.ts" (.fileE "s.ts"
      (.fileE "x.ts" .done))))
    isFile := fun p => ["/r/c.ts", "/r/q.ts", "/r/r.ts", "/r/s.ts", "/r/x.ts"].contains p
    isDir := fun p => p = "/r"
    contents := fun p =>
      if p = "/r/c.ts" then some ["./x", "./q"]
      else if p = "/r/q.ts" then some ["./r"]
      else if p = "/r/r.ts" then some ["./c"]
      else if p = "/r/s.ts" then some ["./c"]
      else if p = "/r/x.ts" then some ["./r"]
      else none }

/-- A ready-made node for the four-module cycle-detection graphs. -/
def mkCycleNode (id : String) (imps : List String) : DependencyNode :=
  { id := id, name := id, displayName := id, fullPath := "/r/" ++ id,
    imports := imps, importedBy := [], unresolvedImports := none }

/-- The node map of the spec's §8 example: modules `p → q → r → p` and an
acyclic `s → p`. -/
def pqrsNodes : List (String × DependencyNode) :=
  [("p", mkCycleNode "p" ["q"]), ("q", mkCycleNode "q" ["r"]),
   ("r", mkCycleNode "r" ["p"]), ("s", mkCycleNode "s" ["p"])]

/-- The edge list of the `p,q,r,s` example, before cycle detection. -/
def pqrsEdges : List DependencyEdge :=
  [{ source := "p", target := "q", circular := false },
   { source := "q", target := "r", circular := false },
   { source := "r", target := "p", circular := false },
   { source := "s", target := "p", circular := false }]

/-- The expected annotation of `pqrsEdges`: the three cycle edges marked,
`s → p` not. -/
def pqrsMarked : List DependencyEdge :=
  [{ source := "p", target := "q", circular := true },
   { source := "q", target := "r", circular := true },
   { source := "r", target := "p", circular := true },
   { source := "s", target := "p", circular := false }]

/-- A project containing both `x.ts` and `x.js`, imported as `./x` from
`main.ts`. -/
def sExt : ParserSettings :=
  { excludePatterns := [], includePatterns := [], rootDir := "/r",
    extensions := [".ts", ".js"], showFullPath := true, pathAliases := [],
    tsConfigBaseUrl := "" }

/-- The snapshot for `sExt`. -/
def fsExt : Fs :=
  { root := .fileE "main.ts" (.fileE "x.js" (.fileE "x.ts" .done))
    isFile := fun p => ["/r/main.ts", "/r/x.js", "/r/x.ts"].contains p
    isDir := fun p => p = "/r"
    contents := fun p =>
      if p = "/r/main.ts" then some ["./x"]
      else if p = "/r/x.ts" ∨ p = "/r/x.js" then some []
      else none }

theorem pass2Step_error_of_contents_none (fs : Fs) (s : ParserSettings)
    (g : DependencyGraph) (f : String) (h : fs.contents f = none) :
    pass2Step fs s g f = .error f := by
  simp [pass2Step, h]

theorem pass2Step_ok_of_contents_some (fs : Fs) (s : ParserSettings)
    (g : DependencyGraph) (f : String) (specs : List String)
    (h : fs.contents f = some specs) :
    ∃ g', pass2Step fs s g f = .ok g' := by
  simp only [pass2Step, h]
  cases mapGet g.nodes (pathRelative s.rootDir f) <;> simp

theorem pass2_error_of_read_failure (fs : Fs) (s : ParserSettings) :
    ∀ (l : List String) (g : DependencyGraph) (f : String), f ∈ l →
      fs.contents f = none →
      ∃ e, l.foldlM (pass2Step fs s) g = .error e := by
  intro l
  induction l with
  | nil => intro g f hf; exact absurd hf (List.not_mem_nil f)
  | cons x xs ih =>
    intro g f hf hnone
    rcases List.mem_cons.mp hf with rfl | hmem
    · refine ⟨f, ?_⟩
      simp only [List.foldlM_cons, pass2Step_error_of_contents_none fs s g f hnone]
      rfl
    · cases hx : fs.contents x with
      | none =>
        refine ⟨x, ?_⟩
        simp only [List.foldlM_cons, pass2Step_error_of_contents_none fs s g x hx]
        rfl
      | some specs =>
        obtain ⟨g', hg'⟩ := pass2Step_ok_of_contents_some fs s g x specs hx
        obtain ⟨e, he⟩ := ih g' f hmem hnone
        refine ⟨e, ?_⟩
        simp only [List.foldlM_cons, hg']
        exact he

/-- C1, counterexample: in the `fsRead` snapshot the file `/r/b.ts` is
scanned in Pass 1 but its Pass 2 read fails; `parse` does not recover —
it propagates the failure instead of returning a graph (the claimed
behaviour would be an `Except.ok` graph with an empty-imports `b.ts`
node). -/
theorem c1_read_failure_aborts_cx :
    parse freshGraph fsRead sRead = .error "/r/b.ts" := by decide

/-- C1, amended: a Pass-2 read failure of any scanned file is fatal to
the whole build — `parse` returns no graph at all (the exception
propagates out of the build, to be caught only by the hosting server). -/
theorem c1_read_failure_aborts (fs : Fs) (s : ParserSettings) (f : String)
    (hscan : f ∈ scanRoot fs s) (hread : fs.contents f = none) :
    exceptIsOk (parse freshGraph fs s) = false := by
  obtain ⟨e, he⟩ := pass2_error_of_read_failure fs s (scanRoot fs s)
    { nodes := pass1 s (scanRoot fs s) freshGraph.nodes, edges := freshGraph.edges }
    f hscan hread
  simp only [scanRoot] at he
  simp [parse, scanRoot, he, exceptIsOk, Except.map]

theorem c1_read_failure_aborts_witness :
    "/r/b.ts" ∈ scanRoot fsRead sRead ∧
      fsRead.contents "/r/b.ts" = none ∧
      exceptIsOk (parse freshGraph fsRead sRead) = false :=
  ⟨by decide, by decide,
    c1_read_failure_aborts fsRead sRead "/r/b.ts" (by decide) (by decide)⟩

theorem mem_insertEverywhere (x : α) :
    ∀ (l₁ l₂ : List α), (l₁ ++ x :: l₂) ∈ insertEverywhere x (l₁ ++ l₂) := by
  intro l₁
  induction l₁ with
  | nil =>
    intro l₂
    cases l₂ <;> simp [insertEverywhere]
  | cons a as ih =>
    intro l₂
    have h1 := ih l₂
    simp only [insertEverywhere, List.cons_append, List.mem_cons, List.mem_map]
    exact Or.inr ⟨as ++ x :: l₂, h1, rfl⟩

theorem mem_permsL_of_perm :
    ∀ (l' l : List α), l.Perm l' → l ∈ permsL l' := by
  intro l'
  induction l' with
  | nil =>
    intro l h
    simp [permsL, h.eq_nil]
  | cons x xs ih =>
    intro l h
    have hx : x ∈ l := h.mem_iff.mpr (List.mem_cons_self x xs)
    obtain ⟨l₁, l₂, rfl⟩ := List.append_of_mem hx
    have hmid : (l₁ ++ x :: l₂).Perm (x :: (l₁ ++ l₂)) := List.perm_middle
    have htail : (l₁ ++ l₂).Perm xs := (List.perm_cons x).mp (hmid.symm.trans h)
    exact List.mem_flatMap.mpr ⟨l₁ ++ l₂, ih _ htail, mem_insertEverywhere x l₁ l₂⟩

set_option maxRecDepth 100000 in
theorem pqrs_all_orders_marked :
    ∀ order ∈ permsL pqrsNodes,
      (detectCircularDependencies { nodes := order, edges := pqrsEdges }).edges =
        pqrsMarked := by decide

set_option maxRecDepth 100000 in
/-- C3, counterexample: the graph `parse` builds from `fsTri` contains
the three-module cycle `c.ts → q.ts → r.ts → c.ts` (all three edges are
in the edge list), yet after cycle detection the edges `c.ts → q.ts` and
`q.ts → r.ts` are not marked circular: the overlapping cycle through
`x.ts` consumed `r.ts` from the DFS stack before the triangle could be
closed. -/
theorem c3_cycle_edges_cx :
    (parse freshGraph fsTri sTri).map (fun g => g.edges) =
      .ok [{ source := "c.ts", target := "x.ts", circular := true },
           { source := "c.ts", target := "q.ts", circular := false },
           { source := "q.ts", target := "r.ts", circular := false },
           { source := "r.ts", target := "c.ts", circular := true },
           { source := "s.ts", target := "c.ts", circular := false },
           { source := "x.ts", target := "r.ts", circular := true }] := by decide

/-- C3, amended: in a graph consisting exactly of the three-module cycle
`p → q → r → p` plus an edge `s → p` from an acyclic module `s`, cycle
detection marks all three cycle edges circular and leaves `s → p`
unmarked, for every node-map iteration order; in larger graphs where the
triangle shares nodes with another cycle, some of its edges can be left
unmarked (see the counterexample). -/
theorem c3_isolated_cycle_marked (order : List (String × DependencyNode))
    (h : order.Perm pqrsNodes) :
    (detectCircularDependencies { nodes := order, edges := pqrsEdges }).edges =
      pqrsMarked :=
  pqrs_all_orders_marked order (mem_permsL_of_perm pqrsNodes order h)

theorem c3_isolated_cycle_marked_witness :
    (detectCircularDependencies
      { nodes := pqrsNodes.reverse, edges := pqrsEdges }).edges = pqrsMarked :=
  c3_isolated_cycle_marked pqrsNodes.reverse (List.reverse_perm pqrsNodes)

/-- C7: extension probing follows the configured extension list in order
with the first match winning: with extensions `[".ts", ".js"]` and both
`x.ts` and `x.js` present, a relative specifier resolves to the `.ts`
file's root-relative id. -/
theorem c7_extension_priority (fs : Fs) (s : ParserSettings) (ip fromFile : String)
    (hexts : s.extensions = [".ts", ".js"])
    (hrel : strStarts ip "." = true)
    (hts : fs.isFile (pathResolve (dirname fromFile) ip ++ ".ts") = true)
    (hjs : fs.isFile (pathResolve (dirname fromFile) ip ++ ".js") = true) :
    resolveImportPath fs s ip fromFile =
      some (pathRelative s.rootDir (pathResolve (dirname fromFile) ip ++ ".ts")) := by
  simp [resolveImportPath, hrel, probeBase, tryWithExtensions, hexts, existsSync, hts,
    Option.orElse]

theorem c7_extension_priority_witness :
    resolveImportPath fsExt sExt "./x" "/r/main.ts" =
      some (pathRelative sExt.rootDir (pathResolve (dirname "/r/main.ts") "./x" ++ ".ts")) :=
  c7_extension_priority fsExt sExt "./x" "/r/main.ts" (by decide) (by decide)
    (by decide) (by decide)

theorem skipAsExternal_of_conditions (s : ParserSettings) (ip : String)
    (h1 : strStarts ip "@" = false)
    (h2 : ∀ a ∈ s.pathAliases,
      (ip == stripAliasStar a.1 || strStarts ip (stripAliasStar a.1 ++ "/")) = false)
    (h3 : strStarts ip "." = false) (h4 : strStarts ip "/" = false)
    (h5 : strHasChar ip '/' = false) :
    skipAsExternal s ip = true := by
  have hal : s.pathAliases.any (fun a =>
      ip == stripAliasStar a.1 || strStarts ip (stripAliasStar a.1 ++ "/")) = false := by
    rw [List.any_eq_false]
    intro a ha
    simp [h2 a ha]
  simp [skipAsExternal, isPathAlias, h1, hal, h3, h4, h5]

theorem foldl_dedup_filter (p : String → Bool) :
    ∀ (l acc : List String),
      (l.filter p).foldl (fun acc x => if x ∈ acc then acc else acc ++ [x]) (acc.filter p) =
        (l.foldl (fun acc x => if x ∈ acc then acc else acc ++ [x]) acc).filter p := by
  intro l
  induction l with
  | nil => intro acc; rfl
  | cons x xs ih =>
    intro acc
    by_cases hx : p x
    · rw [List.filter_cons_of_pos hx]
      simp only [List.foldl_cons]
      by_cases hmem : x ∈ acc
      · rw [if_pos (List.mem_filter.mpr ⟨hmem, hx⟩), if_pos hmem]
        exact ih acc
      · rw [if_neg (fun h => hmem (List.mem_filter.mp h).1), if_neg hmem]
        have hq : (acc ++ [x]).filter p = acc.filter p ++ [x] := by
          rw [List.filter_append]
          simp [hx]
        rw [← hq]
        exact ih (acc ++ [x])
    · rw [List.filter_cons_of_neg hx]
      simp only [List.foldl_cons]
      by_cases hmem : x ∈ acc
      · rw [if_pos hmem]
        exact ih acc
      · rw [if_neg hmem]
        have hq : (acc ++ [x]).filter p = acc.filter p := by
          rw [List.filter_append]
          simp [hx]
        rw [← ih (acc ++ [x]), hq]

theorem dedupFirst_filter (p : String → Bool) (l : List String) :
    dedupFirst (l.filter p) = (dedupFirst l).filter p := by
  simpa [dedupFirst] using foldl_dedup_filter p l []

theorem foldl_extractStep_skip (fs : Fs) (s : ParserSettings) (fp ip : String)
    (hskip : skipAsExternal s ip = true) :
    ∀ (l : List String) (acc : List String × List String),
      (l.filter (fun x => x != ip)).foldl (extractStep fs s fp) acc =
        l.foldl (extractStep fs s fp) acc := by
  intro l
  induction l with
  | nil => intro acc; rfl
  | cons x xs ih =>
    intro acc
    by_cases hx : x = ip
    · subst hx
      rw [List.filter_cons_of_neg (by simp)]
      rw [List.foldl_cons]
      have hstep : extractStep fs s fp acc x = acc := by
        simp [extractStep, hskip]
      rw [hstep]
      exact ih acc
    · rw [List.filter_cons_of_pos (by simp [hx])]
      rw [List.foldl_cons, List.foldl_cons]
      exact ih _

theorem extractImports_drop (fs : Fs) (s : ParserSettings) (specs : List String)
    (fp ip : String) (hskip : skipAsExternal s ip = true) :
    extractImports fs s (specs.filter (fun x => x != ip)) fp =
      extractImports fs s specs fp := by
  unfold extractImports
  rw [dedupFirst_filter, foldl_extractStep_skip fs s fp ip hskip]

theorem mem_foldl_dedup :
    ∀ (l acc : List String) (x : String),
      x ∈ l.foldl (fun acc y => if y ∈ acc then acc else acc ++ [y]) acc →
        x ∈ acc ∨ x ∈ l := by
  intro l
  induction l with
  | nil => intro acc x h; exact Or.inl h
  | cons y ys ih =>
    intro acc x h
    rw [List.foldl_cons] at h
    by_cases hy : y ∈ acc
    · rw [if_pos hy] at h
      rcases ih acc x h with h' | h'
      · exact Or.inl h'
      · exact Or.inr (List.mem_cons_of_mem y h')
    · rw [if_neg hy] at h
      rcases ih (acc ++ [y]) x h with h' | h'
      · rcases List.mem_append.mp h' with h'' | h''
        · exact Or.inl h''
        · exact Or.inr (List.mem_cons.mpr (Or.inl (List.mem_singleton.mp h'')))
      · exact Or.inr (List.mem_cons_of_mem y h')

theorem mem_dedupFirst_sub (l : List String) (x : String) (h : x ∈ dedupFirst l) :
    x ∈ l := by
  rcases mem_foldl_dedup l [] x h with h' | h'
  · exact absurd h' (List.not_mem_nil x)
  · exact h'

theorem unresolved_only_nonskipped (fs : Fs) (s : ParserSettings) (fp ip : String)
    (hskip : skipAsExternal s ip = true) :
    ∀ (l : List String) (acc : List String × List String), ip ∉ acc.2 →
      ip ∉ (l.foldl (extractStep fs s fp) acc).2 := by
  intro l
  induction l with
  | nil => intro acc h; exact h
  | cons x xs ih =>
    intro acc h
    rw [List.foldl_cons]
    refine ih _ ?_
    intro hmem
    by_cases hx : skipAsExternal s x = true
    · have hstep : extractStep fs s fp acc x = acc := by
        simp [extractStep, hx]
      rw [hstep] at hmem
      exact h hmem
    · cases hr : resolveImportPath fs s x fp with
      | some r =>
        have hstep : extractStep fs s fp acc x = (acc.1 ++ [r], acc.2) := by
          simp [extractStep, hx, hr]
        rw [hstep] at hmem
        exact h hmem
      | none =>
        have hstep : extractStep fs s fp acc x = (acc.1, acc.2 ++ [x]) := by
          simp [extractStep, hx, hr]
        rw [hstep] at hmem
        rcases List.mem_append.mp hmem with h' | h'
        · exact h h'
        · apply hx
          rw [← List.mem_singleton.mp h']
          exact hskip


theorem extractImports_dropSpecFs (fs : Fs) (s : ParserSettings) (f ip : String)
    (l : List String) (fp : String) :
    extractImports (dropSpecFs fs f ip) s l fp = extractImports fs s l fp := rfl

theorem pass2Step_dropSpec (fs : Fs) (s : ParserSettings) (f ip : String)
    (hskip : skipAsExternal s ip = true) (g : DependencyGraph) (file : String) :
    pass2Step (dropSpecFs fs f ip) s g file = pass2Step fs s g file := by
  by_cases hf : file = f
  · subst hf
    cases hc : fs.contents file with
    | none =>
      have hcontents : (dropSpecFs fs file ip).contents file = none := by
        simp [dropSpecFs, hc]
      unfold pass2Step
      rw [hcontents, hc]
    | some specs =>
      have hcontents : (dropSpecFs fs file ip).contents file =
          some (specs.filter (fun x => x != ip)) := by
        simp [dropSpecFs, hc]
      unfold pass2Step
      rw [hcontents, hc]
      simp only [extractImports_dropSpecFs,
        extractImports_drop fs s specs file ip hskip]
  · have hcontents : (dropSpecFs fs f ip).contents file = fs.contents file := by
      simp [dropSpecFs, hf]
    unfold pass2Step
    rw [hcontents]
    simp only [extractImports_dropSpecFs]

theorem foldlM_pass2_congr (step1 step2 : DependencyGraph → String → Except String DependencyGraph)
    (h : ∀ g x, step1 g x = step2 g x) :
    ∀ (l : List String) (g : DependencyGraph), l.foldlM step1 g = l.foldlM step2 g := by
  intro l
  induction l with
  | nil => intro g; rfl
  | cons x xs ih =>
    intro g
    rw [List.foldlM_cons, List.foldlM_cons, h]
    cases hs : step2 g x with
    | error e => rfl
    | ok g' =>
      show List.foldlM step1 g' xs = List.foldlM step2 g' xs
      exact ih g'

/-- C2, counterexample: `@foo` is a specifier with no leading `.` or `/`,
no internal separator, and no matching alias (the table is empty) — yet
the build does not drop it silently: because it begins with `@` it is
treated as an alias candidate, fails resolution, and is recorded in the
node's `unresolvedImports` diagnostic list. -/
theorem c2_at_unresolved_cx :
    (parse freshGraph fsAt sSelf).map (fun g => mapGet g.nodes "a.ts") =
      .ok (some
        { id := "a.ts", name := "a.ts", displayName := "a.ts",
          fullPath := "/r/a.ts", imports := [], importedBy := [],
          unresolvedImports := some ["@foo"] }) := by decide

/-- C2, amended: a specifier with no leading relative or absolute marker,
no internal path separator, no matching configured alias prefix, and — the
amendment — no leading `@`, is silently dropped: deleting it from a file's
content leaves the entire build result unchanged (no node, no edge, no
diagnostic), and it never appears in the unresolved list of any
extraction. Specifiers beginning with `@` are instead kept as alias
candidates and, when resolution fails, recorded in `unresolvedImports`. -/
theorem c2_bare_specifier_dropped (fs : Fs) (s : ParserSettings) (f ip : String)
    (specs : List String)
    (h1 : strStarts ip "@" = false)
    (h2 : ∀ a ∈ s.pathAliases,
      (ip == stripAliasStar a.1 || strStarts ip (stripAliasStar a.1 ++ "/")) = false)
    (h3 : strStarts ip "." = false) (h4 : strStarts ip "/" = false)
    (h5 : strHasChar ip '/' = false) :
    parse freshGraph fs s = parse freshGraph (dropSpecFs fs f ip) s ∧
      ip ∉ (extractImports fs s specs f).2 := by
  have hskip := skipAsExternal_of_conditions s ip h1 h2 h3 h4 h5
  constructor
  · show Except.map detectCircularDependencies
        (List.foldlM (pass2Step fs s)
          { nodes := pass1 s (scanRoot fs s) freshGraph.nodes, edges := freshGraph.edges }
          (scanRoot fs s)) =
      Except.map detectCircularDependencies
        (List.foldlM (pass2Step (dropSpecFs fs f ip) s)
          { nodes := pass1 s (scanRoot fs s) freshGraph.nodes, edges := freshGraph.edges }
          (scanRoot fs s))
    rw [foldlM_pass2_congr (pass2Step (dropSpecFs fs f ip) s) (pass2Step fs s)
      (pass2Step_dropSpec fs s f ip hskip)]
  · intro hmem
    have hm2 := mem_dedupFirst_sub _ _ hmem
    exact unresolved_only_nonskipped fs s f ip hskip (dedupFirst specs) ([], [])
      (List.not_mem_nil ip) hm2

theorem c2_bare_specifier_dropped_witness :
    parse freshGraph fsAt sSelf = parse freshGraph (dropSpecFs fsAt "/r/a.ts" "lodash") sSelf ∧
      "lodash" ∉ (extractImports fsAt sSelf ["lodash"] "/r/a.ts").2 :=
  c2_bare_specifier_dropped fsAt sSelf "/r/a.ts" "lodash" ["lodash"] (by decide)
    (by simp [sSelf]) (by decide) (by decide) (by decide)

theorem firstHit_two (a b : Option String) :
    firstHit [a, b] = a.orElse (fun _ => b) := by
  cases a <;> cases b <;> rfl

theorem firstHit_three (a b c : Option String) :
    firstHit [a, b, c] = a.orElse (fun _ => b.orElse (fun _ => c)) := by
  cases a <;> cases b <;> cases c <;> rfl

theorem firstHit_four (a b c d : Option String) :
    firstHit [a, b, c, d] =
      a.orElse (fun _ => b.orElse (fun _ => c.orElse (fun _ => d))) := by
  cases a <;> cases b <;> cases c <;> cases d <;> rfl

theorem specProbe_eq_probeBase (fs : Fs) (s : ParserSettings) (base : String) :
    specProbe fs s base = probeBase fs s base := by
  rw [specProbe, firstHit_three]
  rfl

theorem fallbackScan_eq (fs : Fs) (s : ParserSettings) (ip : String) :
    [joinAbs s.rootDir ip, joinAbs (joinAbs s.rootDir "src") ip].findSome?
        (fun base => probeBase fs s base) =
      firstHit ([joinAbs s.rootDir ip, joinAbs (joinAbs s.rootDir "src") ip].map
        (specProbe fs s)) := by
  simp only [List.map_cons, List.map_nil, specProbe_eq_probeBase]
  cases h1 : probeBase fs s (joinAbs s.rootDir ip) <;>
    cases h2 : probeBase fs s (joinAbs (joinAbs s.rootDir "src") ip) <;>
      simp [List.findSome?, firstHit, h1, h2]

/-- C5: the resolver is exactly the spec's fixed strategy priority order —
relative resolution for `.`-leading specifiers, then alias matching
(aliases in table order, replacement templates in order), then
base-directory joining, then the root and `root/src` fallbacks — with the
first success winning, the three-step probe order inside every strategy,
and `none` (not an error) when no strategy yields a file. -/
theorem c5_strategy_order (fs : Fs) (s : ParserSettings) (ip fromFile : String) :
    resolveImportPath fs s ip fromFile = resolveByStrategies fs s ip fromFile := by
  rw [resolveByStrategies, firstHit_four, relativeStrategy, aliasStrategy,
    baseUrlStrategy, rootFallbackStrategy, resolveImportPath]
  by_cases hrel : strStarts ip "." = true
  · simp only [hrel, if_pos]
    rw [specProbe_eq_probeBase]
    cases hp : probeBase fs s (pathResolve (dirname fromFile) ip) <;>
      simp [Option.orElse]
  · simp only [Bool.not_eq_true] at hrel
    simp only [hrel, Bool.false_eq_true, if_false]
    rw [← fallbackScan_eq]
    simp only [specProbe_eq_probeBase]
    cases ha : s.pathAliases.findSome? (fun a =>
        match aliasCapture a.1 ip with
        | none => none
        | some part =>
          a.2.findSome? (fun rep =>
            probeBase fs s (joinAbs (aliasBase s) (substStar rep part)))) <;>
      simp [Option.orElse]

theorem findSome?_map_comm (f : α → Option β) (h : β → γ) :
    ∀ (l : List α), (l.findSome? f).map h = l.findSome? (fun a => (f a).map h) := by
  intro l
  induction l with
  | nil => rfl
  | cons x xs ih =>
    cases hx : f x <;> simp [List.findSome?_cons, hx, ih]

theorem findSome?_congr (f g : α → Option β) (h : ∀ a, f a = g a) :
    ∀ (l : List α), l.findSome? f = l.findSome? g := by
  intro l
  induction l with
  | nil => rfl
  | cons x xs ih => simp [List.findSome?_cons, h, ih]

theorem orElse_map (a b : Option String) (h : String → String) :
    (a.orElse (fun _ => b)).map h = (a.map h).orElse (fun _ => b.map h) := by
  cases a <;> rfl

theorem tryWithExtensions_abs (fs : Fs) (s : ParserSettings) (base : String) :
    tryWithExtensions fs s base =
      (tryWithExtensionsAbs fs s base).map (pathRelative s.rootDir) := by
  rw [tryWithExtensions, tryWithExtensionsAbs, findSome?_map_comm]
  refine findSome?_congr _ _ (fun ext => ?_) _
  cases hc : existsSync fs (base ++ ext) <;> simp [hc]

theorem tryBareFile_abs (fs : Fs) (s : ParserSettings) (base : String) :
    tryBareFile fs s base = (tryBareFileAbs fs s base).map (pathRelative s.rootDir) := by
  rw [tryBareFile, tryBareFileAbs]
  by_cases hc : existsSync fs base ∧ fs.isFile base <;> simp [hc]

theorem probeBase_abs (fs : Fs) (s : ParserSettings) (base : String) :
    probeBase fs s base = (probeBaseAbs fs s base).map (pathRelative s.rootDir) := by
  rw [probeBase, probeBaseAbs, orElse_map, orElse_map, tryWithExtensions_abs,
    tryBareFile_abs, tryIndexFiles, tryIndexFilesAbs, tryWithExtensions_abs]

theorem resolveImportPath_abs (fs : Fs) (s : ParserSettings) (ip fromFile : String) :
    resolveImportPath fs s ip fromFile =
      (resolveImportPathAbs fs s ip fromFile).map (pathRelative s.rootDir) := by
  rw [resolveImportPath, resolveImportPathAbs]
  by_cases hrel : strStarts ip "." = true
  · simp only [hrel, if_pos]
    exact probeBase_abs fs s _
  · simp only [Bool.not_eq_true] at hrel
    simp only [hrel, Bool.false_eq_true, if_false]
    rw [orElse_map, orElse_map]
    congr 1
    · rw [findSome?_map_comm]
      refine findSome?_congr _ _ (fun a => ?_) _
      cases hcap : aliasCapture a.1 ip with
      | none => rfl
      | some part =>
        simp only []
        rw [findSome?_map_comm]
        exact findSome?_congr _ _ (fun rep => probeBase_abs fs s _) _
    · funext u
      congr 1
      · by_cases hb : s.tsConfigBaseUrl ≠ "" <;> simp [hb, probeBase_abs]
      · funext v
        rw [findSome?_map_comm]
        exact findSome?_congr _ _ (fun base => probeBase_abs fs s _) _

/-- C4: identity collapse — whenever a non-relative (e.g. alias-based)
resolution from one file and a relative resolution from another file find
the same on-disk file `F`, both return the identical node id, namely `F`
made relative to the analysis root: every successful resolution is the
root-relative form of the absolute path its probe found, so different
absolute routes to one file collapse to one node id. -/
theorem c4_identity_collapse (fs : Fs) (s : ParserSettings)
    (ip1 f1 ip2 f2 F : String)
    (halias : strStarts ip1 "." = false) (hrel : strStarts ip2 "." = true)
    (habs1 : resolveImportPathAbs fs s ip1 f1 = some F)
    (habs2 : resolveImportPathAbs fs s ip2 f2 = some F) :
    resolveImportPath fs s ip1 f1 = some (pathRelative s.rootDir F) ∧
      resolveImportPath fs s ip2 f2 = some (pathRelative s.rootDir F) := by
  constructor
  · rw [resolveImportPath_abs, habs1]
    rfl
  · rw [resolveImportPath_abs, habs2]
    rfl

theorem c4_identity_collapse_witness :
    resolveImportPath fsAlias sAlias "@/lib/common" "/p/src/a.ts" =
        some (pathRelative sAlias.rootDir "/p/src/lib/common.ts") ∧
      resolveImportPath fsAlias sAlias "./lib/common" "/p/src/b.ts" =
        some (pathRelative sAlias.rootDir "/p/src/lib/common.ts") :=
  c4_identity_collapse fsAlias sAlias "@/lib/common" "/p/src/a.ts" "./lib/common"
    "/p/src/b.ts" "/p/src/lib/common.ts" (by decide) (by decide) (by decide) (by decide)

theorem scanEntries_showFullPath (s : ParserSettings) (b : Bool) :
    ∀ (t : FsListing) (d : String),
      scanEntries { s with showFullPath := b } d t = scanEntries s d t := by
  intro t
  induction t with
  | done => intro d; rfl
  | fileE name rest ih =>
    intro d
    simp only [scanEntries]
    rw [ih]
    rfl
  | dirE name sub rest ihs ihr =>
    intro d
    simp only [scanEntries]
    rw [ihs, ihr]

theorem scanRoot_showFullPath (fs : Fs) (s : ParserSettings) (b : Bool) :
    scanRoot fs { s with showFullPath := b } = scanRoot fs s :=
  scanEntries_showFullPath s b fs.root s.rootDir

theorem pass2Step_showFullPath (fs : Fs) (s : ParserSettings) (b : Bool)
    (g : DependencyGraph) (file : String) :
    pass2Step fs { s with showFullPath := b } g file = pass2Step fs s g file := rfl

theorem buildNode_showFullPath (s : ParserSettings) (b1 b2 : Bool) (file : String) :
    buildNode { s with showFullPath := b1 } file =
      nodeRelabel b1 (buildNode { s with showFullPath := b2 } file) := rfl

theorem nodeRelabel_unresolved (b : Bool) (n : DependencyNode) :
    (nodeRelabel b n).unresolvedImports = n.unresolvedImports := rfl

theorem nodeRelabel_imports (b : Bool) (n : DependencyNode) :
    (nodeRelabel b n).imports = n.imports := rfl

theorem mapGet_map_relabel (b : Bool) :
    ∀ (m : List (String × DependencyNode)) (k : String),
      mapGet (m.map (fun p => (p.1, nodeRelabel b p.2))) k =
        (mapGet m k).map (nodeRelabel b) := by
  intro m
  induction m with
  | nil => intro k; rfl
  | cons p rest ih =>
    intro k
    by_cases hk : p.1 == k
    · simp [mapGet, List.find?, hk]
    · simp only [mapGet, List.map_cons, List.find?] at *
      simp only [hk]
      exact ih k

theorem mapHas_map_relabel (b : Bool) (m : List (String × DependencyNode)) (k : String) :
    mapHas (m.map (fun p => (p.1, nodeRelabel b p.2))) k = mapHas m k := by
  simp only [mapHas, List.any_map]
  rfl

theorem mapSet_map_relabel (b : Bool) :
    ∀ (m : List (String × DependencyNode)) (k : String) (v : DependencyNode),
      mapSet (m.map (fun p => (p.1, nodeRelabel b p.2))) k (nodeRelabel b v) =
        (mapSet m k v).map (fun p => (p.1, nodeRelabel b p.2)) := by
  intro m
  induction m with
  | nil => intro k v; rfl
  | cons p rest ih =>
    intro k v
    by_cases hk : p.1 = k
    · simp [mapSet, hk]
    · simp [mapSet, hk, ih]

theorem pass1_relabel (s : ParserSettings) (b1 b2 : Bool) :
    ∀ (files : List String) (m : List (String × DependencyNode)),
      pass1 { s with showFullPath := b1 } files
          (m.map (fun p => (p.1, nodeRelabel b1 p.2))) =
        (pass1 { s with showFullPath := b2 } files m).map
          (fun p => (p.1, nodeRelabel b1 p.2)) := by
  intro files
  induction files with
  | nil => intro m; rfl
  | cons f rest ih =>
    intro m
    simp only [pass1, List.foldl_cons]
    rw [buildNode_showFullPath s b1 b2 f, mapSet_map_relabel]
    exact ih (mapSet m (pathRelative _ f) (buildNode { s with showFullPath := b2 } f))

theorem attachEdges_relabel (b : Bool) (relativePath : String) :
    ∀ (imps : List String) (g g' : DependencyGraph),
      g'.nodes = g.nodes.map (fun p => (p.1, nodeRelabel b p.2)) →
      g'.edges = g.edges →
      attachEdges relativePath imps g' = setDisplays b (attachEdges relativePath imps g) := by
  intro imps
  induction imps with
  | nil =>
    intro g g' hn he
    cases g
    cases g'
    simp only [attachEdges, List.foldl_nil, setDisplays]
    simp only at hn he
    rw [hn, he]
  | cons imp rest ih =>
    intro g g' hn he
    simp only [attachEdges, List.foldl_cons]
    rw [hn, mapGet_map_relabel]
    cases ht : mapGet g.nodes imp with
    | none =>
      simp only [Option.map_none']
      exact ih g g' hn he
    | some targetNode =>
      simp only [Option.map_some']
      refine ih _ _ ?_ ?_
      · simp only []
        exact mapSet_map_relabel b g.nodes imp
          { targetNode with importedBy := targetNode.importedBy ++ [relativePath] }
      · simp only []
        rw [he]

theorem pass2Step_relabel (fs : Fs) (s : ParserSettings) (b : Bool)
    (g g' : DependencyGraph)
    (hn : g'.nodes = g.nodes.map (fun p => (p.1, nodeRelabel b p.2)))
    (he : g'.edges = g.edges) (file : String) :
    pass2Step fs s g' file = (pass2Step fs s g file).map (setDisplays b) := by
  unfold pass2Step
  cases hc : fs.contents file with
  | none => rfl
  | some specs =>
    simp only []
    rw [hn, mapGet_map_relabel]
    cases hg : mapGet g.nodes (pathRelative s.rootDir file) with
    | none =>
      simp only [Option.map_none', Except.map]
      congr 1
      cases g
      cases g'
      simp only at hn he
      simp [setDisplays, hn, he]
    | some node =>
      simp only [Option.map_some', Except.map]
      congr 1
      have himps : (extractImports fs s specs file).1.filter (fun imp =>
          ¬shouldExclude s imp ∧ mapHas (g.nodes.map (fun p => (p.1, nodeRelabel b p.2))) imp) =
        (extractImports fs s specs file).1.filter (fun imp =>
          ¬shouldExclude s imp ∧ mapHas g.nodes imp) := by
        refine List.filter_congr (fun imp _ => ?_)
        rw [mapHas_map_relabel]
      rw [himps]
      refine attachEdges_relabel b _ _ _ _ ?_ ?_
      · simp only []
        exact mapSet_map_relabel b g.nodes (pathRelative s.rootDir file)
          { node with
            imports := (extractImports fs s specs file).1.filter (fun imp =>
              ¬shouldExclude s imp ∧ mapHas g.nodes imp)
            unresolvedImports := if (extractImports fs s specs file).2.length > 0 then
              some (extractImports fs s specs file).2
            else node.unresolvedImports }
      · simp only []
        rw [he]

theorem graph_ext (g g' : DependencyGraph) (hn : g'.nodes = g.nodes)
    (he : g'.edges = g.edges) : g' = g := by
  cases g
  cases g'
  simp only at hn he
  rw [hn, he]

theorem foldlM_pass2_relabel (fs : Fs) (s : ParserSettings) (b : Bool) :
    ∀ (files : List String) (g g' : DependencyGraph),
      g'.nodes = g.nodes.map (fun p => (p.1, nodeRelabel b p.2)) →
      g'.edges = g.edges →
      files.foldlM (pass2Step fs s) g' =
        (files.foldlM (pass2Step fs s) g).map (setDisplays b) := by
  intro files
  induction files with
  | nil =>
    intro g g' hn he
    simp only [List.foldlM_nil, Except.map]
    congr 1
    exact graph_ext _ _ (by simp [setDisplays, hn]) (by simp [setDisplays, he])
  | cons f rest ih =>
    intro g g' hn he
    rw [List.foldlM_cons, List.foldlM_cons,
      pass2Step_relabel fs s b g g' hn he f]
    cases hstep : pass2Step fs s g f with
    | error e => rfl
    | ok g2 =>
      show rest.foldlM (pass2Step fs s) (setDisplays b g2) =
        Except.map (setDisplays b) (rest.foldlM (pass2Step fs s) g2)
      exact ih g2 (setDisplays b g2) rfl rfl

theorem dfsVisit_nodes_relabel (b : Bool) (g g' : DependencyGraph)
    (hn : g'.nodes = g.nodes.map (fun p => (p.1, nodeRelabel b p.2))) :
    ∀ (fuel : Nat) (nodeId : String) (path : List String) (st : CycleState),
      dfsVisit g' fuel nodeId path st = dfsVisit g fuel nodeId path st := by
  intro fuel
  induction fuel with
  | zero => intro nodeId path st; rfl
  | succ fuel ih =>
    intro nodeId path st
    simp only [dfsVisit]
    rw [hn, mapGet_map_relabel]
    cases hm : mapGet g.nodes nodeId with
    | none => rfl
    | some node =>
      simp only [Option.map_some']
      have hfun : (fun (acc : CycleState) importId =>
          if importId ∈ acc.visited then
            if importId ∈ acc.recursionStack then
              match (path ++ [nodeId]).findIdx? (fun x => x == importId) with
              | some cycleStart =>
                { acc with circularPairs :=
                    markCyclePairs (path ++ [nodeId]) cycleStart acc.circularPairs }
              | none => acc
            else acc
          else dfsVisit g' fuel importId (path ++ [nodeId]) acc) =
        (fun (acc : CycleState) importId =>
          if importId ∈ acc.visited then
            if importId ∈ acc.recursionStack then
              match (path ++ [nodeId]).findIdx? (fun x => x == importId) with
              | some cycleStart =>
                { acc with circularPairs :=
                    markCyclePairs (path ++ [nodeId]) cycleStart acc.circularPairs }
              | none => acc
            else acc
          else dfsVisit g fuel importId (path ++ [nodeId]) acc) := by
        funext acc importId
        rw [ih]
      rw [hfun]
      rfl

theorem cycleScan_nodes_relabel (b : Bool) (g g' : DependencyGraph)
    (hn : g'.nodes = g.nodes.map (fun p => (p.1, nodeRelabel b p.2))) :
    cycleScan g' = cycleScan g := by
  have haux : ∀ (l : List (String × DependencyNode)) (st : CycleState),
      (l.map (fun p => (p.1, nodeRelabel b p.2))).foldl
        (fun st p => if p.1 ∈ st.visited then st
          else dfsVisit g' (g.nodes.length + 1) p.1 [] st) st =
      l.foldl (fun st p => if p.1 ∈ st.visited then st
        else dfsVisit g (g.nodes.length + 1) p.1 [] st) st := by
    intro l
    induction l with
    | nil => intro st; rfl
    | cons p rest ihl =>
      intro st
      simp only [List.map_cons, List.foldl_cons]
      by_cases hp : p.1 ∈ st.visited
      · simp only [hp, if_pos]
        exact ihl st
      · simp only [hp, if_neg, not_false_iff]
        rw [dfsVisit_nodes_relabel b g g' hn]
        exact ihl _
  unfold cycleScan
  rw [hn, List.length_map]
  exact haux g.nodes _

theorem detect_relabel (b : Bool) (g g' : DependencyGraph)
    (hn : g'.nodes = g.nodes.map (fun p => (p.1, nodeRelabel b p.2)))
    (he : g'.edges = g.edges) :
    detectCircularDependencies g' = setDisplays b (detectCircularDependencies g) := by
  unfold detectCircularDependencies
  rw [cycleScan_nodes_relabel b g g' hn, he]
  exact graph_ext _ _ (by simp [setDisplays, hn]) (by simp [setDisplays])

/-- C9: `showFullPath` is presentation-only — for any snapshot and
settings, the build with `showFullPath := b1` is exactly the build with
`showFullPath := b2` with every node's `displayName` recomputed (the
root-relative id when the flag is set, the bare filename otherwise); node
ids, names, full paths, imports, importedBy, unresolved diagnostics and
the whole edge list with its circular flags are unchanged. -/
theorem c9_show_full_path_display_only (fs : Fs) (s : ParserSettings) (b1 b2 : Bool) :
    parse freshGraph fs { s with showFullPath := b1 } =
      Except.map (setDisplays b1) (parse freshGraph fs { s with showFullPath := b2 }) := by
  show Except.map detectCircularDependencies
      ((scanRoot fs { s with showFullPath := b1 }).foldlM
        (pass2Step fs { s with showFullPath := b1 })
        { nodes := pass1 { s with showFullPath := b1 }
            (scanRoot fs { s with showFullPath := b1 }) freshGraph.nodes,
          edges := freshGraph.edges }) =
    Except.map (setDisplays b1) (Except.map detectCircularDependencies
      ((scanRoot fs { s with showFullPath := b2 }).foldlM
        (pass2Step fs { s with showFullPath := b2 })
        { nodes := pass1 { s with showFullPath := b2 }
            (scanRoot fs { s with showFullPath := b2 }) freshGraph.nodes,
          edges := freshGraph.edges }))
  rw [scanRoot_showFullPath fs s b1, scanRoot_showFullPath fs s b2]
  have hstep1 : pass2Step fs { s with showFullPath := b1 } = pass2Step fs s := by
    funext g file
    exact pass2Step_showFullPath fs s b1 g file
  have hstep2 : pass2Step fs { s with showFullPath := b2 } = pass2Step fs s := by
    funext g file
    exact pass2Step_showFullPath fs s b2 g file
  rw [hstep1, hstep2]
  have hfold : (scanRoot fs s).foldlM (pass2Step fs s)
      { nodes := pass1 { s with showFullPath := b1 } (scanRoot fs s) freshGraph.nodes,
        edges := freshGraph.edges } =
    ((scanRoot fs s).foldlM (pass2Step fs s)
      { nodes := pass1 { s with showFullPath := b2 } (scanRoot fs s) freshGraph.nodes,
        edges := freshGraph.edges }).map (setDisplays b1) := by
    refine foldlM_pass2_relabel fs s b1 (scanRoot fs s) _ _ ?_ ?_
    · show pass1 { s with showFullPath := b1 } (scanRoot fs s) [] =
        (pass1 { s with showFullPath := b2 } (scanRoot fs s) []).map
          (fun p => (p.1, nodeRelabel b1 p.2))
      exact pass1_relabel s b1 b2 (scanRoot fs s) []
    · rfl
  rw [hfold]
  cases hres : (scanRoot fs s).foldlM (pass2Step fs s)
    { nodes := pass1 { s with showFullPath := b2 } (scanRoot fs s) freshGraph.nodes,
      edges := freshGraph.edges } with
  | error e => rfl
  | ok g2 =>
    simp only [Except.map]
    congr 1
    exact detect_relabel b1 g2 (setDisplays b1 g2) rfl rfl

theorem mapHas_keys (k : String) :
    ∀ (m : List (String × DependencyNode)),
      mapHas m k = (m.map Prod.fst).any (fun a => a == k) := by
  intro m
  induction m with
  | nil => rfl
  | cons p rest ih =>
    simp only [mapHas, List.map_cons, List.any_cons] at ih ⊢
    rw [ih]

theorem mapHas_congr_keys (m m' : List (String × DependencyNode))
    (h : m'.map Prod.fst = m.map Prod.fst) (k : String) :
    mapHas m' k = mapHas m k := by
  rw [mapHas_keys k m', mapHas_keys k m, h]

theorem mapHas_of_mapGet_some (m : List (String × DependencyNode)) (k : String)
    (v : DependencyNode) (h : mapGet m k = some v) : mapHas m k = true := by
  unfold mapGet at h
  cases hf : m.find? (fun p => p.1 == k) with
  | none => rw [hf] at h; exact absurd h (by simp)
  | some p =>
    have hp := List.mem_of_find?_eq_some hf
    have hpk := List.find?_some hf
    rw [mapHas, List.any_eq_true]
    exact ⟨p, hp, hpk⟩

theorem mapGet_mem (m : List (String × DependencyNode)) (k : String)
    (v : DependencyNode) (h : mapGet m k = some v) : (k, v) ∈ m := by
  unfold mapGet at h
  cases hf : m.find? (fun p => p.1 == k) with
  | none => rw [hf] at h; exact absurd h (by simp)
  | some p =>
    rw [hf] at h
    have hp := List.mem_of_find?_eq_some hf
    have hpk := List.find?_some hf
    simp only [Option.map_some', Option.some.injEq] at h
    have h1 : p.1 = k := by simpa using hpk
    have h2 : (k, v) = p := by
      cases p
      simp only at h1 h ⊢
      rw [h1, h]
    rw [h2]
    exact hp

theorem mapSet_keys_of_get_some (k : String) (v : DependencyNode) :
    ∀ (m : List (String × DependencyNode)) (w : DependencyNode),
      mapGet m k = some w → (mapSet m k v).map Prod.fst = m.map Prod.fst := by
  intro m
  induction m with
  | nil => intro w h; exact absurd h (by simp [mapGet])
  | cons p rest ih =>
    intro w h
    by_cases hk : p.1 = k
    · simp [mapSet, hk]
    · have hbk : (p.1 == k) = false := by simp [hk]
      have hrest : mapGet rest k = some w := by
        simpa [mapGet, List.find?, hbk] using h
      simp only [mapSet]
      rw [if_neg hk]
      simp only [List.map_cons]
      rw [ih w hrest]

theorem mem_mapSet_elim (k : String) (v : DependencyNode) :
    ∀ (m : List (String × DependencyNode)) (p : String × DependencyNode),
      p ∈ mapSet m k v → p = (k, v) ∨ p ∈ m := by
  intro m
  induction m with
  | nil =>
    intro p hp
    simpa [mapSet] using hp
  | cons q rest ih =>
    intro p hp
    by_cases hk : q.1 = k
    · simp only [mapSet, hk, if_pos] at hp
      rcases List.mem_cons.mp hp with h | h
      · exact Or.inl h
      · exact Or.inr (List.mem_cons_of_mem q h)
    · simp only [mapSet, hk, if_neg, not_false_iff] at hp
      rcases List.mem_cons.mp hp with h | h
      · exact Or.inr (h ▸ List.mem_cons_self q rest)
      · rcases ih p h with h' | h'
        · exact Or.inl h'
        · exact Or.inr (List.mem_cons_of_mem q h')

theorem attachEdges_keys (rel : String) :
    ∀ (imps : List String) (g : DependencyGraph),
      (attachEdges rel imps g).nodes.map Prod.fst = g.nodes.map Prod.fst := by
  intro imps
  induction imps with
  | nil => intro g; rfl
  | cons imp rest ih =>
    intro g
    simp only [attachEdges, List.foldl_cons]
    cases ht : mapGet g.nodes imp with
    | none => exact ih g
    | some t =>
      show (attachEdges rel rest _).nodes.map Prod.fst = _
      rw [ih]
      exact mapSet_keys_of_get_some imp _ g.nodes t ht

theorem attachEdges_edge_elim (rel : String) :
    ∀ (imps : List String) (g : DependencyGraph) (e : DependencyEdge),
      e ∈ (attachEdges rel imps g).edges →
        e ∈ g.edges ∨ (e.source = rel ∧ e.target ∈ imps) := by
  intro imps
  induction imps with
  | nil => intro g e he; exact Or.inl he
  | cons imp rest ih =>
    intro g e he
    simp only [attachEdges, List.foldl_cons] at he
    cases ht : mapGet g.nodes imp with
    | none =>
      rw [ht] at he
      rcases ih g e he with h | ⟨h1, h2⟩
      · exact Or.inl h
      · exact Or.inr ⟨h1, List.mem_cons_of_mem imp h2⟩
    | some t =>
      rw [ht] at he
      rcases ih _ e he with h | ⟨h1, h2⟩
      · simp only at h
        rcases List.mem_append.mp h with h' | h'
        · exact Or.inl h'
        · have : e = { source := rel, target := imp, circular := false } :=
            List.mem_singleton.mp h'
          rw [this]
          exact Or.inr ⟨rfl, List.mem_cons_self imp rest⟩
      · exact Or.inr ⟨h1, List.mem_cons_of_mem imp h2⟩

theorem attachEdges_node_elim (rel : String) :
    ∀ (imps : List String) (g : DependencyGraph) (p : String × DependencyNode),
      p ∈ (attachEdges rel imps g).nodes →
        ∃ q ∈ g.nodes, p.2.imports = q.2.imports := by
  intro imps
  induction imps with
  | nil => intro g p hp; exact ⟨p, hp, rfl⟩
  | cons imp rest ih =>
    intro g p hp
    simp only [attachEdges, List.foldl_cons] at hp
    cases ht : mapGet g.nodes imp with
    | none =>
      rw [ht] at hp
      exact ih g p hp
    | some t =>
      rw [ht] at hp
      rcases ih _ p hp with ⟨q, hq, hqi⟩
      simp only at hq
      rcases mem_mapSet_elim imp _ g.nodes q hq with h | h
      · refine ⟨(imp, t), mapGet_mem g.nodes imp t ht, ?_⟩
        rw [hqi, h]
      · exact ⟨q, h, hqi⟩

theorem mapGet_mapSet_self (k : String) (v : DependencyNode) :
    ∀ (m : List (String × DependencyNode)), mapGet (mapSet m k v) k = some v := by
  intro m
  induction m with
  | nil => simp [mapSet, mapGet, List.find?]
  | cons q rest ih =>
    by_cases hq : q.1 = k
    · simp [mapSet, hq, mapGet, List.find?]
    · have hbq : (q.1 == k) = false := by simp [hq]
      simp only [mapSet]
      rw [if_neg hq]
      simp only [mapGet, List.find?, hbq]
      exact ih

theorem mapGet_mapSet_ne (k k' : String) (v : DependencyNode) (hk : k ≠ k') :
    ∀ (m : List (String × DependencyNode)),
      mapGet (mapSet m k v) k' = mapGet m k' := by
  intro m
  induction m with
  | nil =>
    have hbk : (k == k') = false := by simp [hk]
    simp [mapSet, mapGet, List.find?, hbk]
  | cons q rest ih =>
    by_cases hq : q.1 = k
    · have hbk : (k == k') = false := by simp [hk]
      have hbq : (q.1 == k') = false := by simp [hq, hk]
      simp [mapSet, hq, mapGet, List.find?, hbk, hbq]
    · simp only [mapSet]
      rw [if_neg hq]
      simp only [mapGet, List.find?]
      by_cases hqk : q.1 == k'
      · simp [hqk]
      · simp only [hqk]
        exact ih

theorem attachEdges_nodeGet_imports (rel : String) :
    ∀ (imps : List String) (g : DependencyGraph) (k : String),
      (mapGet (attachEdges rel imps g).nodes k).map (fun n => n.imports) =
        (mapGet g.nodes k).map (fun n => n.imports) := by
  intro imps
  induction imps with
  | nil => intro g k; rfl
  | cons imp rest ih =>
    intro g k
    simp only [attachEdges, List.foldl_cons]
    cases ht : mapGet g.nodes imp with
    | none => exact ih g k
    | some t =>
      show (mapGet (attachEdges rel rest _).nodes k).map (fun n => n.imports) = _
      rw [ih]
      show (mapGet (mapSet g.nodes imp { t with importedBy := t.importedBy ++ [rel] }) k).map
          (fun n => n.imports) = _
      by_cases hk : imp = k
      · subst hk
        rw [mapGet_mapSet_self, ht]
        rfl
      · rw [mapGet_mapSet_ne imp k _ hk]

theorem pass2Step_closure (fs : Fs) (s : ParserSettings) (f : String)
    (g g' : DependencyGraph) (hstep : pass2Step fs s g f = .ok g')
    (hE : ∀ e ∈ g.edges, mapHas g.nodes e.source = true ∧ mapHas g.nodes e.target = true)
    (hN : ∀ p ∈ g.nodes, ∀ i ∈ p.2.imports, mapHas g.nodes i = true) :
    g'.nodes.map Prod.fst = g.nodes.map Prod.fst ∧
      (∀ e ∈ g'.edges, mapHas g'.nodes e.source = true ∧ mapHas g'.nodes e.target = true) ∧
      (∀ p ∈ g'.nodes, ∀ i ∈ p.2.imports, mapHas g'.nodes i = true) := by
  unfold pass2Step at hstep
  cases hc : fs.contents f with
  | none =>
    simp only [hc] at hstep
    exact absurd hstep (by simp)
  | some specs =>
    simp only [hc] at hstep
    cases hn : mapGet g.nodes (pathRelative s.rootDir f) with
    | none =>
      simp only [hn, Except.ok.injEq] at hstep
      subst hstep
      exact ⟨rfl, hE, hN⟩
    | some node =>
      simp only [hn, Except.ok.injEq] at hstep
      have hkeys : g'.nodes.map Prod.fst = g.nodes.map Prod.fst := by
        rw [← hstep, attachEdges_keys]
        exact mapSet_keys_of_get_some _ _ g.nodes node hn
      have hHas : ∀ x, mapHas g'.nodes x = mapHas g.nodes x :=
        mapHas_congr_keys g.nodes g'.nodes hkeys
      have himp_mem : ∀ i ∈ (extractImports fs s specs f).1.filter (fun imp =>
          ¬shouldExclude s imp ∧ mapHas g.nodes imp), mapHas g.nodes i = true := by
        intro i hi
        have hdec := (List.mem_filter.mp hi).2
        simp only [decide_eq_true_eq] at hdec
        exact hdec.2
      refine ⟨hkeys, ?_, ?_⟩
      · intro e he
        rw [← hstep] at he
        rcases attachEdges_edge_elim _ _ _ e he with h | ⟨hsrc, htgt⟩
        · obtain ⟨h1, h2⟩ := hE e h
          rw [hHas, hHas]
          exact ⟨h1, h2⟩
        · constructor
          · rw [hHas, hsrc]
            exact mapHas_of_mapGet_some g.nodes _ node hn
          · rw [hHas]
            exact himp_mem e.target htgt
      · intro p hp i hi
        rw [← hstep] at hp
        rcases attachEdges_node_elim _ _ _ p hp with ⟨q, hq, hqi⟩
        rw [hqi] at hi
        rcases mem_mapSet_elim _ _ g.nodes q hq with h | h
        · rw [h] at hi
          rw [hHas]
          exact himp_mem i hi
        · rw [hHas]
          exact hN q h i hi

theorem foldlM_closure (fs : Fs) (s : ParserSettings) :
    ∀ (l : List String) (g g' : DependencyGraph),
      l.foldlM (pass2Step fs s) g = .ok g' →
      (∀ e ∈ g.edges, mapHas g.nodes e.source = true ∧ mapHas g.nodes e.target = true) →
      (∀ p ∈ g.nodes, ∀ i ∈ p.2.imports, mapHas g.nodes i = true) →
      (∀ e ∈ g'.edges, mapHas g'.nodes e.source = true ∧ mapHas g'.nodes e.target = true) ∧
        (∀ p ∈ g'.nodes, ∀ i ∈ p.2.imports, mapHas g'.nodes i = true) := by
  intro l
  induction l with
  | nil =>
    intro g g' h hE hN
    have hgg : g = g' := by simpa [pure, Except.pure] using h
    subst hgg
    exact ⟨hE, hN⟩
  | cons f rest ih =>
    intro g g' h hE hN
    rw [List.foldlM_cons] at h
    cases hs : pass2Step fs s g f with
    | error e =>
      rw [hs] at h
      exact absurd h (by simp [Bind.bind, Except.bind])
    | ok g2 =>
      rw [hs] at h
      have h2 : rest.foldlM (pass2Step fs s) g2 = .ok g' := h
      obtain ⟨_, hE2, hN2⟩ := pass2Step_closure fs s f g g2 hs hE hN
      exact ih g2 g' h2 hE2 hN2

theorem pass1_imports_mem (s : ParserSettings) :
    ∀ (files : List String) (m : List (String × DependencyNode))
      (p : String × DependencyNode),
      (∀ q ∈ m, q.2.imports = []) → p ∈ pass1 s files m → p.2.imports = [] := by
  intro files
  induction files with
  | nil => intro m p hm hp; exact hm p hp
  | cons f rest ih =>
    intro m p hm hp
    simp only [pass1, List.foldl_cons] at hp
    refine ih (mapSet m _ (buildNode s f)) p ?_ hp
    intro q hq
    rcases mem_mapSet_elim _ _ m q hq with h | h
    · rw [h]
      rfl
    · exact hm q h

/-- C8: closure invariant of every freshly built graph — every edge's
source and target are keys of the node map, and every id in any node's
`imports` is a key of the node map; no edge toward an out-of-graph or
excluded target is created (resolved imports are filtered through
`nodes.has` and the exclude patterns before any edge is pushed). -/
theorem c8_edge_closure (fs : Fs) (s : ParserSettings) (g : DependencyGraph)
    (h : parse freshGraph fs s = .ok g) :
    g.edges.all (fun e => mapHas g.nodes e.source && mapHas g.nodes e.target) = true ∧
      g.nodes.all (fun p => p.2.imports.all (fun i => mapHas g.nodes i)) = true := by
  have hparse : Except.map detectCircularDependencies
      ((scanRoot fs s).foldlM (pass2Step fs s)
        { nodes := pass1 s (scanRoot fs s) freshGraph.nodes, edges := freshGraph.edges }) =
    .ok g := h
  cases hf : (scanRoot fs s).foldlM (pass2Step fs s)
      { nodes := pass1 s (scanRoot fs s) freshGraph.nodes, edges := freshGraph.edges } with
  | error e =>
    rw [hf] at hparse
    exact absurd hparse (by simp [Except.map])
  | ok gPre =>
    rw [hf] at hparse
    simp only [Except.map, Except.ok.injEq] at hparse
    obtain ⟨hE, hN⟩ := foldlM_closure fs s (scanRoot fs s) _ gPre hf
      (by intro e he; exact absurd he (List.not_mem_nil e))
      (by
        intro p hp i hi
        rw [pass1_imports_mem s (scanRoot fs s) freshGraph.nodes p
          (fun q hq => absurd hq (List.not_mem_nil q)) hp] at hi
        exact absurd hi (List.not_mem_nil i))
    rw [← hparse]
    constructor
    · rw [List.all_eq_true]
      intro e he
      have he' : e ∈ gPre.edges.map (fun e =>
          if (e.source, e.target) ∈ (cycleScan gPre).circularPairs then
            { e with circular := true } else e) := he
      rcases List.mem_map.mp he' with ⟨e0, he0, heq⟩
      have hsrc : e.source = e0.source := by
        rw [← heq]
        by_cases hp : (e0.source, e0.target) ∈ (cycleScan gPre).circularPairs <;> simp [hp]
      have htgt : e.target = e0.target := by
        rw [← heq]
        by_cases hp : (e0.source, e0.target) ∈ (cycleScan gPre).circularPairs <;> simp [hp]
      obtain ⟨h1, h2⟩ := hE e0 he0
      have hnodes : (detectCircularDependencies gPre).nodes = gPre.nodes := rfl
      rw [Bool.and_eq_true, hnodes, hsrc, htgt]
      exact ⟨h1, h2⟩
    · rw [List.all_eq_true]
      intro p hp
      rw [List.all_eq_true]
      intro i hi
      have hnodes : (detectCircularDependencies gPre).nodes = gPre.nodes := rfl
      rw [hnodes] at hp ⊢
      exact hN p hp i hi

theorem c8_edge_closure_witness :
    parse freshGraph fsAlias sAlias = .ok gAlias ∧
      (gAlias.edges.all (fun e =>
          mapHas gAlias.nodes e.source && mapHas gAlias.nodes e.target) = true ∧
        gAlias.nodes.all (fun p =>
          p.2.imports.all (fun i => mapHas gAlias.nodes i)) = true) :=
  ⟨by decide, c8_edge_closure fsAlias sAlias gAlias (by decide)⟩

theorem dfsVisit_succ_eq (g : DependencyGraph) (fuel : Nat) (nodeId : String)
    (path : List String) (st : CycleState) :
    dfsVisit g (fuel + 1) nodeId path st =
      (fun st2 => CycleState.mk st2.visited (st2.recursionStack.erase nodeId)
          st2.circularPairs)
        (match mapGet g.nodes nodeId with
         | none => CycleState.mk (setAdd nodeId st.visited)
             (setAdd nodeId st.recursionStack) st.circularPairs
         | some node =>
           node.imports.foldl (dfsFold g fuel (path ++ [nodeId]))
             (CycleState.mk (setAdd nodeId st.visited)
               (setAdd nodeId st.recursionStack) st.circularPairs)) := rfl

theorem mem_setAdd_iff (x y : String) (l : List String) :
    x ∈ setAdd y l ↔ x = y ∨ x ∈ l := by
  unfold setAdd
  by_cases hy : y ∈ l
  · simp only [hy, if_pos]
    constructor
    · exact Or.inr
    · rintro (rfl | h)
      · exact hy
      · exact h
  · simp [hy]

theorem setAdd_subset_right (x : String) (l : List String) : l ⊆ setAdd x l := by
  intro a ha
  rw [mem_setAdd_iff]
  exact Or.inr ha

theorem mem_setAdd_self (x : String) (l : List String) : x ∈ setAdd x l := by
  rw [mem_setAdd_iff]
  exact Or.inl rfl

theorem setAdd_subset_setAdd (x : String) (l l' : List String) (h : l ⊆ l') :
    setAdd x l ⊆ setAdd x l' := by
  intro a ha
  rw [mem_setAdd_iff] at ha ⊢
  rcases ha with rfl | ha
  · exact Or.inl rfl
  · exact Or.inr (h ha)

theorem pairAdd_subset (x : String × String) (l : List (String × String)) :
    l ⊆ pairAdd x l := by
  unfold pairAdd
  by_cases hx : x ∈ l
  · simp [hx]
  · simp only [hx, if_neg, not_false_iff]
    exact fun a ha => List.mem_cons_of_mem x ha

theorem mem_pairAdd_self (x : String × String) (l : List (String × String)) :
    x ∈ pairAdd x l := by
  unfold pairAdd
  by_cases hx : x ∈ l <;> simp [hx]

theorem foldl_markStep_mono (path : List String) (cs : Nat) :
    ∀ (is : List Nat) (ps : List (String × String)),
      ps ⊆ is.foldl (fun ps i => pairAdd (path.getD i "",
        if i = path.length - 1 then path.getD cs "" else path.getD (i + 1) "") ps) ps := by
  intro is
  induction is with
  | nil => intro ps; exact fun a ha => ha
  | cons i rest ih =>
    intro ps
    rw [List.foldl_cons]
    exact fun a ha => ih _ (pairAdd_subset _ ps ha)

theorem markCyclePairs_mono (path : List String) (cs : Nat)
    (ps : List (String × String)) : ps ⊆ markCyclePairs path cs ps := by
  unfold markCyclePairs
  exact foldl_markStep_mono path cs _ ps

theorem foldl_markStep_mem (path : List String) (cs : Nat) :
    ∀ (is : List Nat) (ps : List (String × String)),
      (path.length - 1) ∈ is →
      (path.getD (path.length - 1) "", path.getD cs "") ∈
        is.foldl (fun ps i => pairAdd (path.getD i "",
          if i = path.length - 1 then path.getD cs "" else path.getD (i + 1) "") ps) ps := by
  intro is
  induction is with
  | nil => intro ps h; exact absurd h (List.not_mem_nil _)
  | cons i rest ih =>
    intro ps h
    rw [List.foldl_cons]
    rcases List.mem_cons.mp h with rfl | h'
    · refine foldl_markStep_mono path cs rest _ ?_
      rw [if_pos rfl]
      exact mem_pairAdd_self _ ps
    · exact ih _ h'

theorem markCyclePairs_closing (path : List String) (cs : Nat)
    (ps : List (String × String)) (h : cs < path.length) :
    (path.getD (path.length - 1) "", path.getD cs "") ∈ markCyclePairs path cs ps := by
  unfold markCyclePairs
  refine foldl_markStep_mem path cs _ ps ?_
  rw [List.mem_range'_1]
  omega

theorem dfsVisit_pairs_mono (g : DependencyGraph) :
    ∀ (fuel : Nat) (nodeId : String) (path : List String) (st : CycleState),
      st.circularPairs ⊆ (dfsVisit g fuel nodeId path st).circularPairs := by
  intro fuel
  induction fuel with
  | zero => intro nodeId path st; exact fun a ha => ha
  | succ fuel ih =>
    intro nodeId path st
    rw [dfsVisit_succ_eq]
    cases hm : mapGet g.nodes nodeId with
    | none => exact fun a ha => ha
    | some node =>
      simp only []
      have aux : ∀ (l : List String) (acc : CycleState),
          acc.circularPairs ⊆
            (l.foldl (dfsFold g fuel (path ++ [nodeId])) acc).circularPairs := by
        intro l
        induction l with
        | nil => intro acc; exact fun a ha => ha
        | cons x xs ihl =>
          intro acc
          rw [List.foldl_cons]
          refine fun a ha => ihl _ ?_
          unfold dfsFold
          by_cases hv : x ∈ acc.visited
          · by_cases hr : x ∈ acc.recursionStack
            · simp only [hv, if_pos, hr]
              cases hidx : (path ++ [nodeId]).findIdx? (fun y => y == x) with
              | some cycleStart =>
                exact markCyclePairs_mono _ _ _ ha
              | none => exact ha
            · simp only [hv, if_pos, hr, if_neg, not_false_iff]
              exact ha
          · simp only [hv, if_neg, not_false_iff]
            exact ih x (path ++ [nodeId]) acc ha
      exact aux node.imports (CycleState.mk (setAdd nodeId st.visited)
        (setAdd nodeId st.recursionStack) st.circularPairs)

theorem dfsVisit_visited_mono (g : DependencyGraph) :
    ∀ (fuel : Nat) (nodeId : String) (path : List String) (st : CycleState),
      st.visited ⊆ (dfsVisit g fuel nodeId path st).visited := by
  intro fuel
  induction fuel with
  | zero => intro nodeId path st; exact fun a ha => ha
  | succ fuel ih =>
    intro nodeId path st
    rw [dfsVisit_succ_eq]
    cases hm : mapGet g.nodes nodeId with
    | none =>
      exact fun a ha => setAdd_subset_right nodeId st.visited ha
    | some node =>
      simp only []
      have aux : ∀ (l : List String) (acc : CycleState),
          acc.visited ⊆ (l.foldl (dfsFold g fuel (path ++ [nodeId])) acc).visited := by
        intro l
        induction l with
        | nil => intro acc; exact fun a ha => ha
        | cons x xs ihl =>
          intro acc
          rw [List.foldl_cons]
          refine fun a ha => ihl _ ?_
          unfold dfsFold
          by_cases hv : x ∈ acc.visited
          · by_cases hr : x ∈ acc.recursionStack
            · simp only [hv, if_pos, hr]
              cases hidx : (path ++ [nodeId]).findIdx? (fun y => y == x) with
              | some cycleStart => exact ha
              | none => exact ha
            · simp only [hv, if_pos, hr, if_neg, not_false_iff]
              exact ha
          · simp only [hv, if_neg, not_false_iff]
            exact ih x (path ++ [nodeId]) acc ha
      exact fun a ha => aux node.imports _ (setAdd_subset_right nodeId st.visited ha)

theorem dfsFold_pairs_mono (g : DependencyGraph) (fuel : Nat) (path1 : List String) :
    ∀ (l : List String) (acc : CycleState),
      acc.circularPairs ⊆ (l.foldl (dfsFold g fuel path1) acc).circularPairs := by
  intro l
  induction l with
  | nil => intro acc; exact fun a ha => ha
  | cons x xs ihl =>
    intro acc
    rw [List.foldl_cons]
    refine fun a ha => ihl _ ?_
    unfold dfsFold
    by_cases hv : x ∈ acc.visited
    · by_cases hr : x ∈ acc.recursionStack
      · simp only [hv, if_pos, hr]
        cases hidx : path1.findIdx? (fun y => y == x) with
        | some cycleStart => exact markCyclePairs_mono _ _ _ ha
        | none => exact ha
      · simp only [hv, if_pos, hr, if_neg, not_false_iff]
        exact ha
    · simp only [hv, if_neg, not_false_iff]
      exact dfsVisit_pairs_mono g fuel x path1 acc ha

theorem dfsFold_visited_mono (g : DependencyGraph) (fuel : Nat) (path1 : List String) :
    ∀ (l : List String) (acc : CycleState),
      acc.visited ⊆ (l.foldl (dfsFold g fuel path1) acc).visited := by
  intro l
  induction l with
  | nil => intro acc; exact fun a ha => ha
  | cons x xs ihl =>
    intro acc
    rw [List.foldl_cons]
    refine fun a ha => ihl _ ?_
    unfold dfsFold
    by_cases hv : x ∈ acc.visited
    · by_cases hr : x ∈ acc.recursionStack
      · simp only [hv, if_pos, hr]
        cases hidx : path1.findIdx? (fun y => y == x) with
        | some cycleStart => exact ha
        | none => exact ha
      · simp only [hv, if_pos, hr, if_neg, not_false_iff]
        exact ha
    · simp only [hv, if_neg, not_false_iff]
      exact dfsVisit_visited_mono g fuel x path1 acc ha

theorem dfsFold_mark (g : DependencyGraph) (fuel : Nat) (path1 : List String)
    (acc : CycleState) (x : String) (hv : x ∈ acc.visited)
    (hr : x ∈ acc.recursionStack) (cs : Nat)
    (hidx : path1.findIdx? (fun y => y == x) = some cs) :
    dfsFold g fuel path1 acc x =
      { acc with circularPairs := markCyclePairs path1 cs acc.circularPairs } := by
  unfold dfsFold
  rw [if_pos hv, if_pos hr, hidx]

theorem dfsVisit_stack (g : DependencyGraph) :
    ∀ (fuel : Nat) (nodeId : String) (path : List String) (st : CycleState),
      st.recursionStack ⊆ st.visited → nodeId ∉ st.visited →
      (dfsVisit g fuel nodeId path st).recursionStack = st.recursionStack ∧
        (dfsVisit g fuel nodeId path st).recursionStack ⊆
          (dfsVisit g fuel nodeId path st).visited := by
  intro fuel
  induction fuel with
  | zero =>
    intro nodeId path st hInv hnv
    exact ⟨rfl, hInv⟩
  | succ fuel ih =>
    intro nodeId path st hInv hnv
    have hns : nodeId ∉ st.recursionStack := fun h => hnv (hInv h)
    have hsa : setAdd nodeId st.recursionStack = nodeId :: st.recursionStack := by
      unfold setAdd
      rw [if_neg hns]
    have haux : ∀ (l : List String) (acc : CycleState),
        acc.recursionStack ⊆ acc.visited →
        (l.foldl (dfsFold g fuel (path ++ [nodeId])) acc).recursionStack =
            acc.recursionStack ∧
          (l.foldl (dfsFold g fuel (path ++ [nodeId])) acc).recursionStack ⊆
            (l.foldl (dfsFold g fuel (path ++ [nodeId])) acc).visited := by
      intro l
      induction l with
      | nil => intro acc hacc; exact ⟨by simp, hacc⟩
      | cons x xs ihl =>
        intro acc hacc
        rw [List.foldl_cons]
        have hstep : (dfsFold g fuel (path ++ [nodeId]) acc x).recursionStack =
            acc.recursionStack ∧
            (dfsFold g fuel (path ++ [nodeId]) acc x).recursionStack ⊆
              (dfsFold g fuel (path ++ [nodeId]) acc x).visited := by
          unfold dfsFold
          by_cases hv : x ∈ acc.visited
          · by_cases hr : x ∈ acc.recursionStack
            · simp only [hv, if_pos, hr]
              cases hidx : (path ++ [nodeId]).findIdx? (fun y => y == x) with
              | some cycleStart => exact ⟨by simp, hacc⟩
              | none => exact ⟨by simp, hacc⟩
            · simp only [hv, if_pos, hr, if_neg, not_false_iff]
              exact ⟨by simp, hacc⟩
          · simp only [hv, if_neg, not_false_iff]
            exact ih x (path ++ [nodeId]) acc hacc hv
        obtain ⟨hs1, hs2⟩ := hstep
        obtain ⟨ht1, ht2⟩ := ihl (dfsFold g fuel (path ++ [nodeId]) acc x) hs2
        exact ⟨ht1.trans hs1, ht2⟩
    rw [dfsVisit_succ_eq]
    cases hm : mapGet g.nodes nodeId with
    | none =>
      simp only []
      constructor
      · rw [hsa]
        exact List.erase_cons_head nodeId st.recursionStack
      · rw [hsa, List.erase_cons_head nodeId st.recursionStack]
        intro a ha
        exact setAdd_subset_right nodeId st.visited (hInv ha)
    | some node =>
      simp only []
      have hInv1 : (CycleState.mk (setAdd nodeId st.visited)
          (setAdd nodeId st.recursionStack) st.circularPairs).recursionStack ⊆
            (CycleState.mk (setAdd nodeId st.visited)
              (setAdd nodeId st.recursionStack) st.circularPairs).visited :=
        setAdd_subset_setAdd nodeId _ _ hInv
      obtain ⟨h1, h2⟩ := haux node.imports (CycleState.mk (setAdd nodeId st.visited)
        (setAdd nodeId st.recursionStack) st.circularPairs) hInv1
      constructor
      · rw [h1]
        show (setAdd nodeId st.recursionStack).erase nodeId = st.recursionStack
        rw [hsa]
        exact List.erase_cons_head nodeId st.recursionStack
      · rw [h1]
        show ((setAdd nodeId st.recursionStack).erase nodeId) ⊆ _
        rw [hsa, List.erase_cons_head nodeId st.recursionStack]
        intro a ha
        have hav : a ∈ (CycleState.mk (setAdd nodeId st.visited)
            (setAdd nodeId st.recursionStack) st.circularPairs).visited :=
          setAdd_subset_right nodeId st.visited (hInv ha)
        exact dfsFold_visited_mono g fuel (path ++ [nodeId]) node.imports _ hav

theorem dfsFold_stack (g : DependencyGraph) (fuel : Nat) (path1 : List String) :
    ∀ (l : List String) (acc : CycleState),
      acc.recursionStack ⊆ acc.visited →
      (l.foldl (dfsFold g fuel path1) acc).recursionStack = acc.recursionStack ∧
        (l.foldl (dfsFold g fuel path1) acc).recursionStack ⊆
          (l.foldl (dfsFold g fuel path1) acc).visited := by
  intro l
  induction l with
  | nil => intro acc hacc; exact ⟨by simp, hacc⟩
  | cons x xs ihl =>
    intro acc hacc
    rw [List.foldl_cons]
    have hstep : (dfsFold g fuel path1 acc x).recursionStack = acc.recursionStack ∧
        (dfsFold g fuel path1 acc x).recursionStack ⊆
          (dfsFold g fuel path1 acc x).visited := by
      unfold dfsFold
      by_cases hv : x ∈ acc.visited
      · by_cases hr : x ∈ acc.recursionStack
        · simp only [hv, if_pos, hr]
          cases hidx : path1.findIdx? (fun y => y == x) with
          | some cycleStart => exact ⟨by simp, hacc⟩
          | none => exact ⟨by simp, hacc⟩
        · simp only [hv, if_pos, hr, if_neg, not_false_iff]
          exact ⟨by simp, hacc⟩
      · simp only [hv, if_neg, not_false_iff]
        exact dfsVisit_stack g fuel x path1 acc hacc hv
    obtain ⟨hs1, hs2⟩ := hstep
    obtain ⟨ht1, ht2⟩ := ihl (dfsFold g fuel path1 acc x) hs2
    exact ⟨ht1.trans hs1, ht2⟩

theorem findIdx_beq_mem (f : String) :
    ∀ (l : List String), f ∈ l →
      ∃ cs, l.findIdx? (fun x => x == f) = some cs ∧ cs < l.length ∧
        l.getD cs "" = f := by
  intro l
  induction l with
  | nil => intro h; exact absurd h (List.not_mem_nil f)
  | cons x xs ih =>
    intro h
    by_cases hx : x = f
    · refine ⟨0, ?_, ?_, ?_⟩
      · simp [List.findIdx?_cons, hx]
      · simp
      · simp [List.getD, hx]
    · have hmem : f ∈ xs := by
        rcases List.mem_cons.mp h with h' | h'
        · exact absurd h'.symm hx
        · exact h'
      obtain ⟨cs, h1, h2, h3⟩ := ih hmem
      refine ⟨cs + 1, ?_, ?_, ?_⟩
      · have hbx : (x == f) = false := by simp [hx]
        simp [List.findIdx?_cons, hbx, h1]
      · simpa using Nat.succ_lt_succ h2
      · simpa [List.getD] using h3

theorem getD_concat_last (l : List String) (a : String) :
    (l ++ [a]).getD ((l ++ [a]).length - 1) "" = a := by
  have hlen : (l ++ [a]).length - 1 = l.length := by
    simp
  rw [hlen]
  simp [List.getD, List.get?_concat_length]

theorem markCyclePairs_self (path : List String) (f : String) (cs : Nat)
    (ps : List (String × String)) (hcs : cs < path.length)
    (hlast : path.getD (path.length - 1) "" = f) (hat : path.getD cs "" = f) :
    (f, f) ∈ markCyclePairs path cs ps := by
  have h := markCyclePairs_closing path cs ps hcs
  rw [hlast, hat] at h
  exact h

theorem dfsVisit_self_pair (g : DependencyGraph) (f : String) (n : DependencyNode)
    (hget : mapGet g.nodes f = some n) (hf : f ∈ n.imports) :
    ∀ (fuel : Nat) (nodeId : String) (path : List String) (st : CycleState),
      st.recursionStack ⊆ st.visited → f ∉ st.visited →
      f ∈ (dfsVisit g fuel nodeId path st).visited →
      (f, f) ∈ (dfsVisit g fuel nodeId path st).circularPairs := by
  intro fuel
  induction fuel with
  | zero =>
    intro nodeId path st hInv hnf hfin
    exact absurd hfin hnf
  | succ fuel ih =>
    intro nodeId path st hInv hnf hfin
    have haux : ∀ (l : List String) (acc : CycleState),
        acc.recursionStack ⊆ acc.visited → f ∉ acc.visited →
        f ∈ (l.foldl (dfsFold g fuel (path ++ [nodeId])) acc).visited →
        (f, f) ∈ (l.foldl (dfsFold g fuel (path ++ [nodeId])) acc).circularPairs := by
      intro l
      induction l with
      | nil =>
        intro acc hacc hnf' hfin'
        exact absurd hfin' hnf'
      | cons x xs ihl =>
        intro acc hacc hnf' hfin'
        rw [List.foldl_cons] at hfin' ⊢
        by_cases hv : x ∈ acc.visited
        · have hsame : dfsFold g fuel (path ++ [nodeId]) acc x =
              { acc with circularPairs :=
                (dfsFold g fuel (path ++ [nodeId]) acc x).circularPairs } := by
            unfold dfsFold
            by_cases hr : x ∈ acc.recursionStack
            · simp only [hv, if_pos, hr]
              cases hidx : (path ++ [nodeId]).findIdx? (fun y => y == x) <;> simp
            · simp only [hv, if_pos, hr, if_neg, not_false_iff]
          have hvis : (dfsFold g fuel (path ++ [nodeId]) acc x).visited = acc.visited := by
            rw [hsame]
          have hstk : (dfsFold g fuel (path ++ [nodeId]) acc x).recursionStack =
              acc.recursionStack := by
            rw [hsame]
          refine ihl (dfsFold g fuel (path ++ [nodeId]) acc x) ?_ ?_ hfin'
          · rw [hstk, hvis]
            exact hacc
          · rw [hvis]
            exact hnf'
        · have hrec : dfsFold g fuel (path ++ [nodeId]) acc x =
              dfsVisit g fuel x (path ++ [nodeId]) acc := by
            unfold dfsFold
            simp only [hv, if_neg, not_false_iff]
          rw [hrec] at hfin' ⊢
          by_cases hfx : f ∈ (dfsVisit g fuel x (path ++ [nodeId]) acc).visited
          · have hpair := ih x (path ++ [nodeId]) acc hacc hnf' hfx
            exact dfsFold_pairs_mono g fuel (path ++ [nodeId]) xs _ hpair
          · obtain ⟨hstk, hinv'⟩ := dfsVisit_stack g fuel x (path ++ [nodeId]) acc hacc hv
            exact ihl _ hinv' hfx hfin'
    by_cases hid : nodeId = f
    · subst hid
      rw [dfsVisit_succ_eq]
      rw [hget]
      show (nodeId, nodeId) ∈ (n.imports.foldl (dfsFold g fuel (path ++ [nodeId]))
        (CycleState.mk (setAdd nodeId st.visited)
          (setAdd nodeId st.recursionStack) st.circularPairs)).circularPairs
      obtain ⟨l1, l2, himps⟩ := List.append_of_mem hf
      rw [himps, List.foldl_append, List.foldl_cons]
      have hInv1 : (CycleState.mk (setAdd nodeId st.visited)
          (setAdd nodeId st.recursionStack) st.circularPairs).recursionStack ⊆
          (CycleState.mk (setAdd nodeId st.visited)
            (setAdd nodeId st.recursionStack) st.circularPairs).visited :=
        setAdd_subset_setAdd nodeId _ _ hInv
      obtain ⟨hstkA, hinvA⟩ := dfsFold_stack g fuel (path ++ [nodeId]) l1
        (CycleState.mk (setAdd nodeId st.visited)
          (setAdd nodeId st.recursionStack) st.circularPairs) hInv1
      have hvA : nodeId ∈ (l1.foldl (dfsFold g fuel (path ++ [nodeId]))
          (CycleState.mk (setAdd nodeId st.visited)
            (setAdd nodeId st.recursionStack) st.circularPairs)).visited :=
        dfsFold_visited_mono g fuel (path ++ [nodeId]) l1 _
          (mem_setAdd_self nodeId st.visited)
      have hsA : nodeId ∈ (l1.foldl (dfsFold g fuel (path ++ [nodeId]))
          (CycleState.mk (setAdd nodeId st.visited)
            (setAdd nodeId st.recursionStack) st.circularPairs)).recursionStack := by
        rw [hstkA]
        exact mem_setAdd_self nodeId st.recursionStack
      have hstep : (nodeId, nodeId) ∈ (dfsFold g fuel (path ++ [nodeId])
          (l1.foldl (dfsFold g fuel (path ++ [nodeId]))
            (CycleState.mk (setAdd nodeId st.visited)
              (setAdd nodeId st.recursionStack) st.circularPairs)) nodeId).circularPairs := by
        obtain ⟨cs, hidx, hcs, hat⟩ := findIdx_beq_mem nodeId (path ++ [nodeId])
          (by simp)
        rw [dfsFold_mark g fuel (path ++ [nodeId]) _ nodeId hvA hsA cs hidx]
        show (nodeId, nodeId) ∈ markCyclePairs (path ++ [nodeId]) cs _
        exact markCyclePairs_self (path ++ [nodeId]) nodeId cs _ hcs
          (getD_concat_last path nodeId) hat
      exact dfsFold_pairs_mono g fuel (path ++ [nodeId]) l2 _ hstep
    · rw [dfsVisit_succ_eq] at hfin ⊢
      cases hm : mapGet g.nodes nodeId with
      | none =>
        rw [hm] at hfin
        have hfin' : f ∈ setAdd nodeId st.visited := hfin
        rw [mem_setAdd_iff] at hfin'
        rcases hfin' with h | h
        · exact absurd h.symm hid
        · exact absurd h hnf
      | some node =>
        rw [hm] at hfin
        have hInv1 : (CycleState.mk (setAdd nodeId st.visited)
            (setAdd nodeId st.recursionStack) st.circularPairs).recursionStack ⊆
            (CycleState.mk (setAdd nodeId st.visited)
              (setAdd nodeId st.recursionStack) st.circularPairs).visited :=
          setAdd_subset_setAdd nodeId _ _ hInv
        have hnf1 : f ∉ (CycleState.mk (setAdd nodeId st.visited)
            (setAdd nodeId st.recursionStack) st.circularPairs).visited := by
          show f ∉ setAdd nodeId st.visited
          rw [mem_setAdd_iff]
          rintro (rfl | h)
          · exact hid rfl
          · exact hnf h
        have hfin2 : f ∈ (node.imports.foldl (dfsFold g fuel (path ++ [nodeId]))
            (CycleState.mk (setAdd nodeId st.visited)
              (setAdd nodeId st.recursionStack) st.circularPairs)).visited := hfin
        show (f, f) ∈ (node.imports.foldl (dfsFold g fuel (path ++ [nodeId]))
          (CycleState.mk (setAdd nodeId st.visited)
            (setAdd nodeId st.recursionStack) st.circularPairs)).circularPairs
        exact haux node.imports _ hInv1 hnf1 hfin2

theorem rootsFold_pairs_mono (g : DependencyGraph) :
    ∀ (l : List (String × DependencyNode)) (acc : CycleState),
      acc.circularPairs ⊆
        (l.foldl (fun st p => if p.1 ∈ st.visited then st
          else dfsVisit g (g.nodes.length + 1) p.1 [] st) acc).circularPairs := by
  intro l
  induction l with
  | nil => intro acc; exact fun a ha => ha
  | cons p rest ih =>
    intro acc
    rw [List.foldl_cons]
    refine fun a ha => ih _ ?_
    by_cases hp : p.1 ∈ acc.visited
    · simp only [hp, if_pos]
      exact ha
    · simp only [hp, if_neg, not_false_iff]
      exact dfsVisit_pairs_mono g (g.nodes.length + 1) p.1 [] acc ha

theorem rootsFold_self_pair (g : DependencyGraph) (f : String) (n : DependencyNode)
    (hget : mapGet g.nodes f = some n) (hf : f ∈ n.imports) :
    ∀ (l : List (String × DependencyNode)) (acc : CycleState),
      acc.recursionStack ⊆ acc.visited →
      f ∉ acc.visited → f ∈ l.map Prod.fst →
      (f, f) ∈ (l.foldl (fun st p => if p.1 ∈ st.visited then st
        else dfsVisit g (g.nodes.length + 1) p.1 [] st) acc).circularPairs := by
  intro l
  induction l with
  | nil =>
    intro acc hInv hnf hmem
    exact absurd hmem (by simp)
  | cons p rest ih =>
    intro acc hInv hnf hmem
    rw [List.foldl_cons]
    by_cases hp : p.1 ∈ acc.visited
    · simp only [hp, if_pos]
      have hne : f ≠ p.1 := fun h => hnf (h ▸ hp)
      rw [List.map_cons] at hmem
      have hmem' : f ∈ rest.map Prod.fst := by
        rcases List.mem_cons.mp hmem with h | h
        · exact absurd h hne
        · exact h
      exact ih acc hInv hnf hmem'
    · simp only [hp, if_neg, not_false_iff]
      by_cases hfx : f ∈ (dfsVisit g (g.nodes.length + 1) p.1 [] acc).visited
      · have hpair := dfsVisit_self_pair g f n hget hf (g.nodes.length + 1) p.1 [] acc
          hInv hnf hfx
        exact rootsFold_pairs_mono g rest _ hpair
      · obtain ⟨hstk, hinv'⟩ := dfsVisit_stack g (g.nodes.length + 1) p.1 [] acc hInv hp
        have hne : f ≠ p.1 := by
          intro h
          rw [← h] at hfx
          exact hfx (by
            rw [dfsVisit_succ_eq]
            cases hm : mapGet g.nodes f with
            | none =>
              exact mem_setAdd_self f acc.visited
            | some node =>
              show f ∈ (node.imports.foldl (dfsFold g g.nodes.length (([] : List String) ++ [f]))
                (CycleState.mk (setAdd f acc.visited)
                  (setAdd f acc.recursionStack) acc.circularPairs)).visited
              exact dfsFold_visited_mono g g.nodes.length _ node.imports _
                (mem_setAdd_self f acc.visited))
        rw [List.map_cons] at hmem
        have hmem' : f ∈ rest.map Prod.fst := by
          rcases List.mem_cons.mp hmem with h | h
          · exact absurd h hne
          · exact h
        exact ih _ hinv' hfx hmem'

theorem cycleScan_self_pair (g : DependencyGraph) (f : String) (n : DependencyNode)
    (hget : mapGet g.nodes f = some n) (hf : f ∈ n.imports) :
    (f, f) ∈ (cycleScan g).circularPairs := by
  have hkey : f ∈ g.nodes.map Prod.fst := by
    have hmem := mapGet_mem g.nodes f n hget
    exact List.mem_map.mpr ⟨(f, n), hmem, rfl⟩
  unfold cycleScan
  exact rootsFold_self_pair g f n hget hf g.nodes
    (CycleState.mk [] [] []) (fun a ha => ha) (List.not_mem_nil f) hkey

theorem mapGet_some_of_mapHas :
    ∀ (m : List (String × DependencyNode)) (k : String),
      mapHas m k = true → ∃ v, mapGet m k = some v := by
  intro m
  induction m with
  | nil => intro k h; exact absurd h (by simp [mapHas])
  | cons p rest ih =>
    intro k h
    by_cases hb : (p.1 == k) = true
    · exact ⟨p.2, by simp [mapGet, List.find?, hb]⟩
    · have hb' : (p.1 == k) = false := by simpa using hb
      have h' : mapHas rest k = true := by simpa [mapHas, hb'] using h
      obtain ⟨v, hv⟩ := ih k h'
      exact ⟨v, by simpa [mapGet, List.find?, hb'] using hv⟩

theorem mapHas_mapSet (k k' : String) (v : DependencyNode) :
    ∀ (m : List (String × DependencyNode)),
      mapHas (mapSet m k v) k' = (k == k' || mapHas m k') := by
  intro m
  induction m with
  | nil => simp [mapSet, mapHas]
  | cons p rest ih =>
    simp only [mapSet]
    by_cases hp : p.1 = k
    · rw [if_pos hp]
      simp only [mapHas, List.any_cons]
      rw [hp]
      cases hk : (k == k') <;> simp
    · rw [if_neg hp]
      simp only [mapHas, List.any_cons] at ih ⊢
      rw [ih]
      cases hk : (k == k') <;> cases hpk : (p.1 == k') <;> simp

theorem pass1_has_mono (s : ParserSettings) :
    ∀ (files : List String) (m : List (String × DependencyNode)) (k : String),
      mapHas m k = true → mapHas (pass1 s files m) k = true := by
  intro files
  induction files with
  | nil => intro m k h; exact h
  | cons a rest ih =>
    intro m k h
    simp only [pass1, List.foldl_cons]
    show mapHas (pass1 s rest _) k = true
    refine ih _ k ?_
    rw [mapHas_mapSet]
    simp [h]

theorem pass1_has (s : ParserSettings) :
    ∀ (files : List String) (m : List (String × DependencyNode)) (f : String),
      f ∈ files → mapHas (pass1 s files m) (pathRelative s.rootDir f) = true := by
  intro files
  induction files with
  | nil => intro m f h; exact absurd h (List.not_mem_nil f)
  | cons a rest ih =>
    intro m f h
    simp only [pass1, List.foldl_cons]
    rcases List.mem_cons.mp h with h | h
    · subst h
      show mapHas (pass1 s rest _) (pathRelative s.rootDir f) = true
      refine pass1_has_mono s rest _ _ ?_
      rw [mapHas_mapSet]
      simp
    · exact ih _ f h

theorem attachEdges_edges_eq (rel : String) :
    ∀ (imps : List String) (g : DependencyGraph),
      (∀ imp ∈ imps, mapHas g.nodes imp = true) →
      (attachEdges rel imps g).edges =
        g.edges ++ imps.map (fun imp =>
          { source := rel, target := imp, circular := false }) := by
  intro imps
  induction imps with
  | nil => intro g _; simp [attachEdges]
  | cons imp rest ih =>
    intro g hall
    have hhas : mapHas g.nodes imp = true := hall imp (List.mem_cons_self imp rest)
    obtain ⟨t, ht⟩ := mapGet_some_of_mapHas g.nodes imp hhas
    simp only [attachEdges, List.foldl_cons]
    rw [ht]
    show (attachEdges rel rest
        { nodes := mapSet g.nodes imp { t with importedBy := t.importedBy ++ [rel] },
          edges := g.edges ++ [{ source := rel, target := imp, circular := false }] }).edges = _
    rw [ih]
    · simp
    · intro i hi
      have hkeys := mapSet_keys_of_get_some imp
        { t with importedBy := t.importedBy ++ [rel] } g.nodes t ht
      show mapHas (mapSet g.nodes imp _) i = true
      rw [mapHas_congr_keys g.nodes _ hkeys]
      exact hall i (List.mem_cons_of_mem imp hi)

theorem pass2Step_keys (fs : Fs) (s : ParserSettings) (f : String)
    (g g' : DependencyGraph) (hstep : pass2Step fs s g f = .ok g') :
    g'.nodes.map Prod.fst = g.nodes.map Prod.fst := by
  unfold pass2Step at hstep
  cases hc : fs.contents f with
  | none =>
    simp only [hc] at hstep
    exact absurd hstep (by simp)
  | some specs =>
    simp only [hc] at hstep
    cases hn : mapGet g.nodes (pathRelative s.rootDir f) with
    | none =>
      simp only [hn, Except.ok.injEq] at hstep
      subst hstep
      rfl
    | some node =>
      simp only [hn, Except.ok.injEq] at hstep
      rw [← hstep, attachEdges_keys]
      exact mapSet_keys_of_get_some _ _ g.nodes node hn

theorem pass2Step_spec (fs : Fs) (s : ParserSettings) (f : String) (specs : List String)
    (g g' : DependencyGraph) (node : DependencyNode)
    (hc : fs.contents f = some specs)
    (hn : mapGet g.nodes (pathRelative s.rootDir f) = some node)
    (hstep : pass2Step fs s g f = .ok g') :
    g'.edges = g.edges ++ ((extractImports fs s specs f).1.filter
        (fun imp => ¬shouldExclude s imp ∧ mapHas g.nodes imp)).map
        (fun imp => { source := pathRelative s.rootDir f, target := imp, circular := false }) ∧
      (mapGet g'.nodes (pathRelative s.rootDir f)).map (fun n => n.imports) =
        some ((extractImports fs s specs f).1.filter
          (fun imp => ¬shouldExclude s imp ∧ mapHas g.nodes imp)) ∧
      (∀ k, k ≠ pathRelative s.rootDir f →
        (mapGet g'.nodes k).map (fun n => n.imports) =
          (mapGet g.nodes k).map (fun n => n.imports)) := by
  unfold pass2Step at hstep
  simp only [hc] at hstep
  simp only [hn, Except.ok.injEq] at hstep
  have hkeysMid : (mapSet g.nodes (pathRelative s.rootDir f)
      { node with
        imports := (extractImports fs s specs f).1.filter
          (fun imp => ¬shouldExclude s imp ∧ mapHas g.nodes imp)
        unresolvedImports := if (extractImports fs s specs f).2.length > 0 then
          some (extractImports fs s specs f).2 else node.unresolvedImports }).map Prod.fst =
      g.nodes.map Prod.fst :=
    mapSet_keys_of_get_some _ _ g.nodes node hn
  have hall : ∀ imp ∈ (extractImports fs s specs f).1.filter
      (fun imp => ¬shouldExclude s imp ∧ mapHas g.nodes imp),
      mapHas (mapSet g.nodes (pathRelative s.rootDir f)
        { node with
          imports := (extractImports fs s specs f).1.filter
            (fun imp => ¬shouldExclude s imp ∧ mapHas g.nodes imp)
          unresolvedImports := if (extractImports fs s specs f).2.length > 0 then
            some (extractImports fs s specs f).2 else node.unresolvedImports }) imp = true := by
    intro i hi
    rw [mapHas_congr_keys g.nodes _ hkeysMid]
    have hdec := (List.mem_filter.mp hi).2
    simp only [decide_eq_true_eq] at hdec
    exact hdec.2
  refine ⟨?_, ?_, ?_⟩
  · rw [← hstep]
    rw [attachEdges_edges_eq _ _ _ hall]
  · rw [← hstep]
    rw [attachEdges_nodeGet_imports]
    show (mapGet (mapSet g.nodes (pathRelative s.rootDir f) _) _).map _ = _
    rw [mapGet_mapSet_self]
    rfl
  · intro k hk
    rw [← hstep]
    rw [attachEdges_nodeGet_imports]
    show (mapGet (mapSet g.nodes (pathRelative s.rootDir f) _) k).map _ = _
    rw [mapGet_mapSet_ne _ k _ (fun h => hk h.symm)]

theorem pass2Step_ok_no_node (fs : Fs) (s : ParserSettings) (f : String) (specs : List String)
    (g g' : DependencyGraph)
    (hc : fs.contents f = some specs)
    (hn : mapGet g.nodes (pathRelative s.rootDir f) = none)
    (hstep : pass2Step fs s g f = .ok g') : g' = g := by
  unfold pass2Step at hstep
  simp only [hc] at hstep
  simp only [hn, Except.ok.injEq] at hstep
  exact hstep.symm

theorem pass2Step_preserve_ne (fs : Fs) (s : ParserSettings) (f relId : String)
    (g g' : DependencyGraph) (hstep : pass2Step fs s g f = .ok g')
    (hne : pathRelative s.rootDir f ≠ relId) :
    g'.edges.filter (fun e => e.source == relId && e.target == relId) =
      g.edges.filter (fun e => e.source == relId && e.target == relId) ∧
      (mapGet g'.nodes relId).map (fun n => n.imports) =
        (mapGet g.nodes relId).map (fun n => n.imports) := by
  cases hc : fs.contents f with
  | none =>
    unfold pass2Step at hstep
    simp only [hc] at hstep
    exact absurd hstep (by simp)
  | some specs =>
    cases hn : mapGet g.nodes (pathRelative s.rootDir f) with
    | none =>
      have hgg := pass2Step_ok_no_node fs s f specs g g' hc hn hstep
      subst hgg
      exact ⟨rfl, rfl⟩
    | some node =>
      obtain ⟨hE, _, hoth⟩ := pass2Step_spec fs s f specs g g' node hc hn hstep
      constructor
      · rw [hE, List.filter_append]
        have hnil : (((extractImports fs s specs f).1.filter
            (fun imp => ¬shouldExclude s imp ∧ mapHas g.nodes imp)).map
            (fun imp => ({ source := pathRelative s.rootDir f, target := imp,
                           circular := false } : DependencyEdge))).filter
            (fun e => e.source == relId && e.target == relId) = [] := by
          rw [List.filter_eq_nil]
          intro e he
          rcases List.mem_map.mp he with ⟨imp, _, heq⟩
          rw [← heq]
          simp [hne]
        rw [hnil, List.append_nil]
      · exact hoth relId (fun h => hne h.symm)

theorem foldlM_preserve_ne (fs : Fs) (s : ParserSettings) (relId : String) :
    ∀ (l : List String) (g g' : DependencyGraph),
      (∀ f ∈ l, pathRelative s.rootDir f ≠ relId) →
      l.foldlM (pass2Step fs s) g = .ok g' →
      g'.edges.filter (fun e => e.source == relId && e.target == relId) =
        g.edges.filter (fun e => e.source == relId && e.target == relId) ∧
        (mapGet g'.nodes relId).map (fun n => n.imports) =
          (mapGet g.nodes relId).map (fun n => n.imports) ∧
        g'.nodes.map Prod.fst = g.nodes.map Prod.fst := by
  intro l
  induction l with
  | nil =>
    intro g g' _ h
    have hgg : g = g' := by simpa [pure, Except.pure] using h
    subst hgg
    exact ⟨rfl, rfl, rfl⟩
  | cons f rest ih =>
    intro g g' hne h
    rw [List.foldlM_cons] at h
    cases hs : pass2Step fs s g f with
    | error e =>
      rw [hs] at h
      exact absurd h (by simp [Bind.bind, Except.bind])
    | ok g2 =>
      rw [hs] at h
      have h2 : rest.foldlM (pass2Step fs s) g2 = .ok g' := h
      obtain ⟨hf1, hf2⟩ := pass2Step_preserve_ne fs s f relId g g2 hs
        (hne f (List.mem_cons_self f rest))
      have hk := pass2Step_keys fs s f g g2 hs
      obtain ⟨hr1, hr2, hr3⟩ := ih g2 g' (fun x hx => hne x (List.mem_cons_of_mem f hx)) h2
      exact ⟨hr1.trans hf1, hr2.trans hf2, hr3.trans hk⟩

theorem foldl_dedup_nodup :
    ∀ (l acc : List String), acc.Nodup →
      (l.foldl (fun acc x => if x ∈ acc then acc else acc ++ [x]) acc).Nodup := by
  intro l
  induction l with
  | nil => intro acc h; exact h
  | cons x rest ih =>
    intro acc h
    rw [List.foldl_cons]
    by_cases hx : x ∈ acc
    · rw [if_pos hx]
      exact ih acc h
    · rw [if_neg hx]
      refine ih _ ?_
      rw [List.nodup_append]
      refine ⟨h, List.nodup_singleton x, ?_⟩
      intro a ha hax
      exact hx ((List.mem_singleton.mp hax) ▸ ha)

theorem dedupFirst_nodup (l : List String) : (dedupFirst l).Nodup :=
  foldl_dedup_nodup l [] List.nodup_nil

theorem extractImports_fst_nodup (fs : Fs) (s : ParserSettings) (specs : List String)
    (f : String) : ((extractImports fs s specs f).1).Nodup := by
  show (dedupFirst _).Nodup
  exact dedupFirst_nodup _

theorem nodup_filter_beq_singleton (a : String) :
    ∀ (l : List String), l.Nodup → a ∈ l →
      l.filter (fun x => x == a) = [a] := by
  intro l
  induction l with
  | nil => intro _ h; exact absurd h (List.not_mem_nil a)
  | cons b rest ih =>
    intro hnd hmem
    have hnd' := List.nodup_cons.mp hnd
    rcases List.mem_cons.mp hmem with h | h
    · rw [List.filter_cons]
      have hba : (b == a) = true := by simp [h.symm]
      simp only [hba, if_pos]
      have hnil : rest.filter (fun x => x == a) = [] := by
        rw [List.filter_eq_nil]
        intro x hx
        simp only [beq_iff_eq]
        intro hxa
        subst hxa
        subst h
        exact hnd'.1 hx
      rw [hnil, h]
    · have hba : (b == a) = false := by
        simp only [beq_eq_false_iff_ne]
        intro hb
        exact hnd'.1 (hb ▸ h)
      rw [List.filter_cons]
      simp only [hba]
      exact ih hnd'.2 h

theorem filter_selfEdge_map (relId : String) :
    ∀ (imps : List String),
      ((imps.map (fun imp => ({ source := relId, target := imp,
                                circular := false } : DependencyEdge))).filter
        (fun e => e.source == relId && e.target == relId)) =
      (imps.filter (fun imp => imp == relId)).map
        (fun imp => ({ source := relId, target := imp,
                       circular := false } : DependencyEdge)) := by
  intro imps
  induction imps with
  | nil => rfl
  | cons imp rest ih =>
    simp only [List.map_cons, List.filter_cons]
    cases him : (imp == relId) <;> simp [him, ih]

theorem filter_selfEdge_mark (relId : String) (pairs : List (String × String)) :
    ∀ (l : List DependencyEdge),
      ((l.map (fun e => if (e.source, e.target) ∈ pairs then
          { e with circular := true } else e)).filter
        (fun e => e.source == relId && e.target == relId)) =
      ((l.filter (fun e => e.source == relId && e.target == relId)).map
        (fun e => if (e.source, e.target) ∈ pairs then
          { e with circular := true } else e)) := by
  intro l
  induction l with
  | nil => rfl
  | cons e rest ih =>
    simp only [List.map_cons, List.filter_cons]
    have hst : ((if (e.source, e.target) ∈ pairs then
        ({ e with circular := true } : DependencyEdge) else e).source == relId &&
        (if (e.source, e.target) ∈ pairs then
        ({ e with circular := true } : DependencyEdge) else e).target == relId) =
        (e.source == relId && e.target == relId) := by
      by_cases hp : (e.source, e.target) ∈ pairs <;> simp [hp]
    rw [hst]
    cases hq : (e.source == relId && e.target == relId) <;> simp [hq, ih]

theorem scanEntries_not_excluded (s : ParserSettings) :
    ∀ (listing : FsListing) (d F : String),
      F ∈ scanEntries s d listing →
      shouldExclude s (pathRelative s.rootDir F) = false := by
  intro listing
  induction listing with
  | done =>
    intro d F h
    exact absurd h (List.not_mem_nil F)
  | dirE name sub rest ihsub ihrest =>
    intro d F h
    simp only [scanEntries] at h
    rcases List.mem_append.mp h with h | h
    · by_cases hn : name = "node_modules" ∨ name = ".git" ∨ name = "dist"
      · rw [if_pos hn] at h
        exact absurd h (List.not_mem_nil F)
      · rw [if_neg hn] at h
        exact ihsub _ F h
    · exact ihrest d F h
  | fileE name rest ihrest =>
    intro d F h
    simp only [scanEntries] at h
    rcases List.mem_append.mp h with h | h
    · by_cases he : s.extensions.contains (extname name) = true
      · rw [if_pos he] at h
        by_cases hcnd : ¬shouldExclude s (pathRelative s.rootDir (joinAbs d name)) = true ∧
            shouldInclude s (pathRelative s.rootDir (joinAbs d name)) = true
        · rw [if_pos hcnd] at h
          have hF : F = joinAbs d name := List.mem_singleton.mp h
          subst hF
          simpa using hcnd.1
        · rw [if_neg hcnd] at h
          exact absurd h (List.not_mem_nil F)
      · rw [if_neg he] at h
        exact absurd h (List.not_mem_nil F)
    · exact ihrest d F h

theorem scanRoot_not_excluded (fs : Fs) (s : ParserSettings) (F : String)
    (h : F ∈ scanRoot fs s) :
    shouldExclude s (pathRelative s.rootDir F) = false :=
  scanEntries_not_excluded s fs.root s.rootDir F h

/-- C6: in a build whose scanned files have pairwise distinct root-relative
ids, every file whose content yields a resolvable import of itself produces
exactly one edge with identical source and target id — duplicate
self-specifiers collapse to one edge — and cycle detection marks that
self-edge `circular = true`. -/
theorem c6_self_import_edge (fs : Fs) (s : ParserSettings) (g : DependencyGraph) (F : String)
    (hparse : parse freshGraph fs s = .ok g)
    (hF : F ∈ scanRoot fs s)
    (hnodup : ((scanRoot fs s).map (fun f => pathRelative s.rootDir f)).Nodup)
    (hself : pathRelative s.rootDir F ∈ (extractImports fs s ((fs.contents F).getD []) F).1) :
    g.edges.filter (fun e =>
        e.source == pathRelative s.rootDir F && e.target == pathRelative s.rootDir F) =
      [{ source := pathRelative s.rootDir F, target := pathRelative s.rootDir F,
         circular := true }] := by
  obtain ⟨l1, l2, hsplit⟩ := List.append_of_mem hF
  have hparse' : Except.map detectCircularDependencies
      ((scanRoot fs s).foldlM (pass2Step fs s)
        { nodes := pass1 s (scanRoot fs s) freshGraph.nodes, edges := freshGraph.edges }) =
    .ok g := hparse
  cases hf0 : (scanRoot fs s).foldlM (pass2Step fs s)
      { nodes := pass1 s (scanRoot fs s) freshGraph.nodes, edges := freshGraph.edges } with
  | error e =>
    rw [hf0] at hparse'
    exact absurd hparse' (by simp [Except.map])
  | ok gPre =>
    rw [hf0] at hparse'
    simp only [Except.map, Except.ok.injEq] at hparse'
    have hf : (scanRoot fs s).foldlM (pass2Step fs s)
        { nodes := pass1 s (scanRoot fs s) freshGraph.nodes, edges := freshGraph.edges } =
        .ok gPre := hf0
    rw [hsplit, List.foldlM_append] at hf
    rw [hsplit] at hnodup
    simp only [List.map_append, List.map_cons] at hnodup
    rw [List.nodup_append] at hnodup
    obtain ⟨hnd1, hnd2, hdisj⟩ := hnodup
    have hne1 : ∀ f ∈ l1, pathRelative s.rootDir f ≠ pathRelative s.rootDir F := by
      intro f hfm heq
      exact hdisj (List.mem_map.mpr ⟨f, hfm, rfl⟩)
        (heq ▸ List.mem_cons_self (pathRelative s.rootDir F) (l2.map fun x => pathRelative s.rootDir x))
    have hne2 : ∀ f ∈ l2, pathRelative s.rootDir f ≠ pathRelative s.rootDir F := by
      intro f hfm heq
      exact (List.nodup_cons.mp hnd2).1 (heq ▸ List.mem_map.mpr ⟨f, hfm, rfl⟩)
    cases hA : l1.foldlM (pass2Step fs s)
        { nodes := pass1 s (scanRoot fs s) freshGraph.nodes, edges := freshGraph.edges } with
    | error e =>
      rw [hsplit] at hA
      rw [hA] at hf
      exact absurd hf (by simp [Bind.bind, Except.bind])
    | ok gA =>
      rw [hsplit] at hA
      rw [hA] at hf
      have hf1 : (F :: l2).foldlM (pass2Step fs s) gA = .ok gPre := hf
      rw [List.foldlM_cons] at hf1
      cases hB : pass2Step fs s gA F with
      | error e =>
        rw [hB] at hf1
        exact absurd hf1 (by simp [Bind.bind, Except.bind])
      | ok gB =>
        rw [hB] at hf1
        have hf2 : l2.foldlM (pass2Step fs s) gB = .ok gPre := hf1
        obtain ⟨hAf, hAi, hAk⟩ := foldlM_preserve_ne fs s (pathRelative s.rootDir F) l1 _ gA
          hne1 hA
        have hhasInit : mapHas (pass1 s (l1 ++ F :: l2) freshGraph.nodes)
            (pathRelative s.rootDir F) = true :=
          pass1_has s (l1 ++ F :: l2) freshGraph.nodes F
            (List.mem_append_right l1 (List.mem_cons_self F l2))
        have hhasA : mapHas gA.nodes (pathRelative s.rootDir F) = true := by
          rw [mapHas_congr_keys _ gA.nodes hAk]
          exact hhasInit
        obtain ⟨nodeA, hnA⟩ := mapGet_some_of_mapHas gA.nodes (pathRelative s.rootDir F) hhasA
        cases hcF : fs.contents F with
        | none =>
          have hErr := pass2Step_error_of_contents_none fs s gA F hcF
          rw [hErr] at hB
          exact absurd hB (by simp)
        | some specsF =>
          simp only [hcF, Option.getD_some] at hself
          obtain ⟨hEB, hIB, _⟩ := pass2Step_spec fs s F specsF gA gB nodeA hcF hnA hB
          have hexcl : shouldExclude s (pathRelative s.rootDir F) = false :=
            scanRoot_not_excluded fs s F hF
          have hmemImps : pathRelative s.rootDir F ∈ (extractImports fs s specsF F).1.filter
              (fun imp => ¬shouldExclude s imp ∧ mapHas gA.nodes imp) :=
            List.mem_filter.mpr ⟨hself, by simp [hexcl, hhasA]⟩
          have hnodupImps : ((extractImports fs s specsF F).1.filter
              (fun imp => ¬shouldExclude s imp ∧ mapHas gA.nodes imp)).Nodup :=
            (extractImports_fst_nodup fs s specsF F).filter _
          have hfilterImps : ((extractImports fs s specsF F).1.filter
              (fun imp => ¬shouldExclude s imp ∧ mapHas gA.nodes imp)).filter
              (fun x => x == pathRelative s.rootDir F) = [pathRelative s.rootDir F] :=
            nodup_filter_beq_singleton (pathRelative s.rootDir F) _ hnodupImps hmemImps
          have hAnil : gA.edges.filter (fun e =>
              e.source == pathRelative s.rootDir F && e.target == pathRelative s.rootDir F) =
              [] := by
            rw [hAf]
            rfl
          have hBf : gB.edges.filter (fun e =>
              e.source == pathRelative s.rootDir F && e.target == pathRelative s.rootDir F) =
              [{ source := pathRelative s.rootDir F, target := pathRelative s.rootDir F,
                 circular := false }] := by
            rw [hEB, List.filter_append, hAnil, List.nil_append]
            rw [filter_selfEdge_map, hfilterImps]
            rfl
          obtain ⟨hPf, hPi, _⟩ := foldlM_preserve_ne fs s (pathRelative s.rootDir F) l2 gB gPre
            hne2 hf2
          have hPfilter : gPre.edges.filter (fun e =>
              e.source == pathRelative s.rootDir F && e.target == pathRelative s.rootDir F) =
              [{ source := pathRelative s.rootDir F, target := pathRelative s.rootDir F,
                 circular := false }] := hPf.trans hBf
          have hPimp : (mapGet gPre.nodes (pathRelative s.rootDir F)).map (fun n => n.imports) =
              some ((extractImports fs s specsF F).1.filter
                (fun imp => ¬shouldExclude s imp ∧ mapHas gA.nodes imp)) := hPi.trans hIB
          cases hget : mapGet gPre.nodes (pathRelative s.rootDir F) with
          | none =>
            rw [hget] at hPimp
            exact absurd hPimp (by simp)
          | some nodeF =>
            rw [hget] at hPimp
            simp only [Option.map_some', Option.some.injEq] at hPimp
            have hmemF : pathRelative s.rootDir F ∈ nodeF.imports := by
              rw [hPimp]
              exact hmemImps
            have hpair := cycleScan_self_pair gPre (pathRelative s.rootDir F) nodeF hget hmemF
            rw [← hparse']
            show (gPre.edges.map (fun e =>
                if (e.source, e.target) ∈ (cycleScan gPre).circularPairs then
                  { e with circular := true } else e)).filter
                (fun e => e.source == pathRelative s.rootDir F &&
                  e.target == pathRelative s.rootDir F) = _
            rw [filter_selfEdge_mark, hPfilter]
            simp [hpair]

theorem c6_self_import_edge_witness :
    parse freshGraph fsSelf sSelf = .ok gSelf ∧
      "/r/a.ts" ∈ scanRoot fsSelf sSelf ∧
      ((scanRoot fsSelf sSelf).map (fun f => pathRelative sSelf.rootDir f)).Nodup ∧
      pathRelative sSelf.rootDir "/r/a.ts" ∈
        (extractImports fsSelf sSelf ((fsSelf.contents "/r/a.ts").getD []) "/r/a.ts").1 ∧
      gSelf.edges.filter (fun e =>
          e.source == pathRelative sSelf.rootDir "/r/a.ts" &&
            e.target == pathRelative sSelf.rootDir "/r/a.ts") =
        [{ source := pathRelative sSelf.rootDir "/r/a.ts",
           target := pathRelative sSelf.rootDir "/r/a.ts", circular := true }] :=
  ⟨by decide, by decide, by decide, by decide,
    c6_self_import_edge fsSelf sSelf gSelf "/r/a.ts" (by decide) (by decide) (by decide)
      (by decide)⟩

theorem mapGet_eq_none_of_not_mem_keys :
    ∀ (m : List (String × DependencyNode)) (k : String),
      k ∉ m.map Prod.fst → mapGet m k = none := by
  intro m
  induction m with
  | nil => intro k _; rfl
  | cons p rest ih =>
    intro k hk
    have hp1 : p.1 ∈ (p :: rest).map Prod.fst := by simp
    have hne : p.1 ≠ k := fun h => hk (h ▸ hp1)
    have hb : (p.1 == k) = false := by simp [hne]
    have hk' : k ∉ rest.map Prod.fst := by
      intro h
      exact hk (by simp only [List.map_cons]; exact List.mem_cons_of_mem p.1 h)
    simp only [mapGet, List.find?, hb]
    exact ih k hk'

theorem assoc_ext :
    ∀ (m m' : List (String × DependencyNode)),
      m.map Prod.fst = m'.map Prod.fst → (m.map Prod.fst).Nodup →
      (∀ k, mapGet m k = mapGet m' k) → m = m' := by
  intro m
  induction m with
  | nil =>
    intro m' hkeys _ _
    cases m' with
    | nil => rfl
    | cons p r => exact absurd hkeys (by simp)
  | cons p rest ih =>
    intro m' hkeys hnd hget
    cases m' with
    | nil => exact absurd hkeys (by simp)
    | cons p' r' =>
      simp only [List.map_cons, List.cons.injEq] at hkeys
      obtain ⟨hk0, hkr⟩ := hkeys
      have hnd0 : (p.1 :: rest.map Prod.fst).Nodup := by
        simpa only [List.map_cons] using hnd
      have hndhead : p.1 ∉ rest.map Prod.fst := (List.nodup_cons.mp hnd0).1
      have hndtail : (rest.map Prod.fst).Nodup := (List.nodup_cons.mp hnd0).2
      have hv : p.2 = p'.2 := by
        have h1 : mapGet (p :: rest) p.1 = some p.2 := by
          simp [mapGet, List.find?]
        have h2 : mapGet (p' :: r') p.1 = some p'.2 := by
          simp [mapGet, List.find?, hk0.symm]
        have h3 := (h1.symm.trans (hget p.1)).trans h2
        exact Option.some.inj h3
      have hpp : p = p' := by
        cases p
        cases p'
        simp only at hk0 hv
        rw [hk0, hv]
      have hrest : rest = r' := by
        refine ih r' hkr hndtail ?_
        intro k
        by_cases hk : k = p.1
        · subst hk
          rw [mapGet_eq_none_of_not_mem_keys rest p.1 hndhead,
            mapGet_eq_none_of_not_mem_keys r' p.1 (hkr ▸ hndhead)]
        · have hb : (p.1 == k) = false := by simp [Ne.symm hk]
          have hb' : (p'.1 == k) = false := by rw [← hk0]; exact hb
          have := hget k
          simpa [mapGet, List.find?, hb, hb'] using this
      rw [hpp, hrest]

theorem mapSet_keys_of_not_has (k : String) (v : DependencyNode) :
    ∀ (m : List (String × DependencyNode)), mapHas m k = false →
      (mapSet m k v).map Prod.fst = m.map Prod.fst ++ [k] := by
  intro m
  induction m with
  | nil => intro _; rfl
  | cons p rest ih =>
    intro h
    simp only [mapHas, List.any_cons, Bool.or_eq_false_iff] at h
    have hne : p.1 ≠ k := by simpa using h.1
    simp only [mapSet]
    rw [if_neg hne]
    simp only [List.map_cons, List.cons_append, List.cons.injEq]
    exact ⟨trivial, ih (by simpa [mapHas] using h.2)⟩

theorem pass1_keys_has (s : ParserSettings) :
    ∀ (files : List String) (m : List (String × DependencyNode)),
      (∀ f ∈ files, mapHas m (pathRelative s.rootDir f) = true) →
      (pass1 s files m).map Prod.fst = m.map Prod.fst := by
  intro files
  induction files with
  | nil => intro m _; rfl
  | cons f rest ih =>
    intro m hall
    simp only [pass1, List.foldl_cons]
    show (pass1 s rest (mapSet m (pathRelative s.rootDir f) (buildNode s f))).map Prod.fst = _
    obtain ⟨v, hv⟩ := mapGet_some_of_mapHas m (pathRelative s.rootDir f)
      (hall f (List.mem_cons_self f rest))
    have hkeys := mapSet_keys_of_get_some (pathRelative s.rootDir f) (buildNode s f) m v hv
    rw [ih _ ?_, hkeys]
    intro x hx
    rw [mapHas_congr_keys m _ hkeys]
    exact hall x (List.mem_cons_of_mem f hx)

theorem pass1_keys_fresh (s : ParserSettings) :
    ∀ (files : List String) (m : List (String × DependencyNode)),
      (∀ f ∈ files, mapHas m (pathRelative s.rootDir f) = false) →
      ((files.map (fun f => pathRelative s.rootDir f)).Nodup) →
      (pass1 s files m).map Prod.fst =
        m.map Prod.fst ++ files.map (fun f => pathRelative s.rootDir f) := by
  intro files
  induction files with
  | nil => intro m _ _; simp [pass1]
  | cons f rest ih =>
    intro m hall hnd
    simp only [pass1, List.foldl_cons]
    show (pass1 s rest (mapSet m (pathRelative s.rootDir f) (buildNode s f))).map Prod.fst = _
    have hkeys := mapSet_keys_of_not_has (pathRelative s.rootDir f) (buildNode s f) m
      (hall f (List.mem_cons_self f rest))
    simp only [List.map_cons] at hnd
    have hnd' := List.nodup_cons.mp hnd
    rw [ih _ ?_ hnd'.2, hkeys]
    · simp
    · intro x hx
      rw [mapHas_mapSet]
      have hne : (pathRelative s.rootDir f == pathRelative s.rootDir x) = false := by
        simp only [beq_eq_false_iff_ne]
        intro h
        exact hnd'.1 (h ▸ List.mem_map.mpr ⟨x, hx, rfl⟩)
      rw [hne, hall x (List.mem_cons_of_mem f hx)]
      rfl

theorem pass1_get_skip (s : ParserSettings) :
    ∀ (files : List String) (m : List (String × DependencyNode)) (k : String),
      k ∉ files.map (fun f => pathRelative s.rootDir f) →
      mapGet (pass1 s files m) k = mapGet m k := by
  intro files
  induction files with
  | nil => intro m k _; rfl
  | cons f rest ih =>
    intro m k hk
    simp only [List.map_cons] at hk
    have hne : pathRelative s.rootDir f ≠ k := by
      intro h
      exact hk (h ▸ List.mem_cons_self _ _)
    have hk' : k ∉ rest.map (fun f => pathRelative s.rootDir f) :=
      fun h => hk (List.mem_cons_of_mem _ h)
    simp only [pass1, List.foldl_cons]
    show mapGet (pass1 s rest (mapSet m (pathRelative s.rootDir f) (buildNode s f))) k = _
    rw [ih _ k hk', mapGet_mapSet_ne _ k _ hne]

theorem pass1_get_mem (s : ParserSettings) :
    ∀ (files : List String) (m : List (String × DependencyNode)) (f : String),
      f ∈ files → ((files.map (fun f => pathRelative s.rootDir f)).Nodup) →
      mapGet (pass1 s files m) (pathRelative s.rootDir f) = some (buildNode s f) := by
  intro files
  induction files with
  | nil => intro m f h _; exact absurd h (List.not_mem_nil f)
  | cons a rest ih =>
    intro m f h hnd
    simp only [List.map_cons] at hnd
    have hnd' := List.nodup_cons.mp hnd
    simp only [pass1, List.foldl_cons]
    rcases List.mem_cons.mp h with h | h
    · subst h
      show mapGet (pass1 s rest (mapSet m (pathRelative s.rootDir f) (buildNode s f)))
          (pathRelative s.rootDir f) = _
      rw [pass1_get_skip s rest _ _ hnd'.1, mapGet_mapSet_self]
    · show mapGet (pass1 s rest (mapSet m (pathRelative s.rootDir a) (buildNode s a)))
          (pathRelative s.rootDir f) = _
      exact ih _ f h hnd'.2

theorem pass1_eq_of_keys (s : ParserSettings) (files : List String)
    (m : List (String × DependencyNode))
    (hkeys : m.map Prod.fst = files.map (fun f => pathRelative s.rootDir f))
    (hnd : (files.map (fun f => pathRelative s.rootDir f)).Nodup) :
    pass1 s files m = pass1 s files [] := by
  have hhasAll : ∀ f ∈ files, mapHas m (pathRelative s.rootDir f) = true := by
    intro f hf
    rw [mapHas_keys, hkeys, List.any_eq_true]
    exact ⟨pathRelative s.rootDir f, List.mem_map.mpr ⟨f, hf, rfl⟩, by simp⟩
  have hfreshAll : ∀ f ∈ files, mapHas ([] : List (String × DependencyNode))
      (pathRelative s.rootDir f) = false := by
    intro f _
    rfl
  have hk1 : (pass1 s files m).map Prod.fst = files.map (fun f => pathRelative s.rootDir f) :=
    (pass1_keys_has s files m hhasAll).trans hkeys
  have hk2 : (pass1 s files ([] : List (String × DependencyNode))).map Prod.fst =
      files.map (fun f => pathRelative s.rootDir f) := by
    have := pass1_keys_fresh s files [] hfreshAll hnd
    simpa using this
  refine assoc_ext _ _ (hk1.trans hk2.symm) (hk1 ▸ hnd) ?_
  intro k
  by_cases hk : k ∈ files.map (fun f => pathRelative s.rootDir f)
  · rcases List.mem_map.mp hk with ⟨f, hf, hfk⟩
    subst hfk
    rw [pass1_get_mem s files m f hf hnd, pass1_get_mem s files [] f hf hnd]
  · rw [pass1_get_skip s files m k hk, pass1_get_skip s files [] k hk]
    rw [mapGet_eq_none_of_not_mem_keys m k (hkeys ▸ hk)]
    rfl

theorem foldlM_keys (fs : Fs) (s : ParserSettings) :
    ∀ (l : List String) (g g' : DependencyGraph),
      l.foldlM (pass2Step fs s) g = .ok g' →
      g'.nodes.map Prod.fst = g.nodes.map Prod.fst := by
  intro l
  induction l with
  | nil =>
    intro g g' h
    have hgg : g = g' := by simpa [pure, Except.pure] using h
    subst hgg
    rfl
  | cons f rest ih =>
    intro g g' h
    rw [List.foldlM_cons] at h
    cases hs : pass2Step fs s g f with
    | error e =>
      rw [hs] at h
      exact absurd h (by simp [Bind.bind, Except.bind])
    | ok g2 =>
      rw [hs] at h
      exact (ih g2 g' h).trans (pass2Step_keys fs s f g g2 hs)

theorem attachEdges_nodes_congr (rel : String) :
    ∀ (imps : List String) (g g' : DependencyGraph), g'.nodes = g.nodes →
      (attachEdges rel imps g').nodes = (attachEdges rel imps g).nodes := by
  intro imps
  induction imps with
  | nil => intro g g' hn; exact hn
  | cons imp rest ih =>
    intro g g' hn
    simp only [attachEdges, List.foldl_cons]
    rw [hn]
    cases ht : mapGet g.nodes imp with
    | none =>
      exact ih g g' hn
    | some t =>
      show (attachEdges rel rest
          { nodes := mapSet g.nodes imp { t with importedBy := t.importedBy ++ [rel] },
            edges := g'.edges ++ [{ source := rel, target := imp, circular := false }] }).nodes =
        (attachEdges rel rest
          { nodes := mapSet g.nodes imp { t with importedBy := t.importedBy ++ [rel] },
            edges := g.edges ++ [{ source := rel, target := imp, circular := false }] }).nodes
      exact ih _ _ rfl

theorem attachEdges_edges_split (rel : String) :
    ∀ (imps : List String) (g : DependencyGraph),
      (attachEdges rel imps g).edges =
        g.edges ++ (attachEdges rel imps { nodes := g.nodes, edges := [] }).edges := by
  intro imps
  induction imps with
  | nil => intro g; simp [attachEdges]
  | cons imp rest ih =>
    intro g
    simp only [attachEdges, List.foldl_cons]
    cases ht : mapGet g.nodes imp with
    | none =>
      exact ih g
    | some t =>
      show (attachEdges rel rest
          { nodes := mapSet g.nodes imp { t with importedBy := t.importedBy ++ [rel] },
            edges := g.edges ++ [{ source := rel, target := imp, circular := false }] }).edges =
        g.edges ++ (attachEdges rel rest
          { nodes := mapSet g.nodes imp { t with importedBy := t.importedBy ++ [rel] },
            edges := [] ++ [{ source := rel, target := imp, circular := false }] }).edges
      rw [ih { nodes := mapSet g.nodes imp { t with importedBy := t.importedBy ++ [rel] },
               edges := g.edges ++ [{ source := rel, target := imp, circular := false }] },
          ih { nodes := mapSet g.nodes imp { t with importedBy := t.importedBy ++ [rel] },
               edges := [] ++ [{ source := rel, target := imp, circular := false }] }]
      simp [List.append_assoc]

theorem pass2Step_shift (fs : Fs) (s : ParserSettings) (f : String) (g : DependencyGraph) :
    pass2Step fs s g f = (pass2Step fs s { nodes := g.nodes, edges := [] } f).map
      (fun g' => { nodes := g'.nodes, edges := g.edges ++ g'.edges }) := by
  unfold pass2Step
  cases hc : fs.contents f with
  | none => simp [Except.map]
  | some specs =>
    simp only
    cases hn : mapGet g.nodes (pathRelative s.rootDir f) with
    | none =>
      simp [hn, Except.map]
    | some node =>
      simp only [hn, Except.map, Except.ok.injEq]
      refine graph_ext _ _ ?_ ?_
      · exact attachEdges_nodes_congr _ _ _ _ rfl
      · exact attachEdges_edges_split _ _ _

theorem foldlM_shift (fs : Fs) (s : ParserSettings) :
    ∀ (l : List String) (g : DependencyGraph),
      l.foldlM (pass2Step fs s) g =
        (l.foldlM (pass2Step fs s) { nodes := g.nodes, edges := [] }).map
          (fun g' => { nodes := g'.nodes, edges := g.edges ++ g'.edges }) := by
  intro l
  induction l with
  | nil =>
    intro g
    simp [pure, Except.pure, Except.map]
  | cons f rest ih =>
    intro g
    rw [List.foldlM_cons, List.foldlM_cons]
    rw [pass2Step_shift fs s f g]
    cases hs : pass2Step fs s { nodes := g.nodes, edges := [] } f with
    | error e =>
      simp [Except.map, Bind.bind, Except.bind]
    | ok g2 =>
      simp only [Except.map, Bind.bind, Except.bind]
      rw [ih { nodes := g2.nodes, edges := g.edges ++ g2.edges }, ih g2]
      cases hr : rest.foldlM (pass2Step fs s) { nodes := g2.nodes, edges := [] } with
      | error e => simp [Except.map]
      | ok g3 => simp [Except.map, List.append_assoc]

theorem dfsVisit_edges_congr (g g' : DependencyGraph) (hn : g'.nodes = g.nodes) :
    ∀ (fuel : Nat) (nodeId : String) (path : List String) (st : CycleState),
      dfsVisit g' fuel nodeId path st = dfsVisit g fuel nodeId path st := by
  intro fuel
  induction fuel with
  | zero => intro nodeId path st; rfl
  | succ fuel ih =>
    intro nodeId path st
    simp only [dfsVisit]
    rw [hn]
    cases hm : mapGet g.nodes nodeId with
    | none => rfl
    | some node =>
      have hfun : (fun (acc : CycleState) importId =>
          if importId ∈ acc.visited then
            if importId ∈ acc.recursionStack then
              match (path ++ [nodeId]).findIdx? (fun x => x == importId) with
              | some cycleStart =>
                { acc with circularPairs :=
                    markCyclePairs (path ++ [nodeId]) cycleStart acc.circularPairs }
              | none => acc
            else acc
          else dfsVisit g' fuel importId (path ++ [nodeId]) acc) =
        (fun (acc : CycleState) importId =>
          if importId ∈ acc.visited then
            if importId ∈ acc.recursionStack then
              match (path ++ [nodeId]).findIdx? (fun x => x == importId) with
              | some cycleStart =>
                { acc with circularPairs :=
                    markCyclePairs (path ++ [nodeId]) cycleStart acc.circularPairs }
              | none => acc
            else acc
          else dfsVisit g fuel importId (path ++ [nodeId]) acc) := by
        funext acc importId
        rw [ih]
      rw [hfun]

theorem cycleScan_edges_congr (g g' : DependencyGraph) (hn : g'.nodes = g.nodes) :
    cycleScan g' = cycleScan g := by
  have haux : ∀ (l : List (String × DependencyNode)) (st : CycleState),
      l.foldl (fun st p => if p.1 ∈ st.visited then st
        else dfsVisit g' (g.nodes.length + 1) p.1 [] st) st =
      l.foldl (fun st p => if p.1 ∈ st.visited then st
        else dfsVisit g (g.nodes.length + 1) p.1 [] st) st := by
    intro l
    induction l with
    | nil => intro st; rfl
    | cons p rest ihl =>
      intro st
      simp only [List.foldl_cons]
      by_cases hp : p.1 ∈ st.visited
      · simp only [hp, if_pos]
        exact ihl st
      · simp only [hp, if_neg, not_false_iff]
        rw [dfsVisit_edges_congr g g' hn]
        exact ihl _
  unfold cycleScan
  rw [hn]
  exact haux g.nodes _

theorem mark_map_idem (pairs : List (String × String)) :
    ∀ (l : List DependencyEdge),
      ((l.map (fun e => if (e.source, e.target) ∈ pairs then
          { e with circular := true } else e)).map
        (fun e => if (e.source, e.target) ∈ pairs then
          { e with circular := true } else e)) =
      l.map (fun e => if (e.source, e.target) ∈ pairs then
        { e with circular := true } else e) := by
  intro l
  induction l with
  | nil => rfl
  | cons e rest ih =>
    simp only [List.map_cons, List.cons.injEq]
    refine ⟨?_, ih⟩
    by_cases hp : (e.source, e.target) ∈ pairs
    · simp [hp]
    · simp [hp]

/-- C10: calling `parse` a second time on the same instance (its graph is
the first run's result) over an unchanged snapshot rebuilds the node map
to exactly the first run's nodes, but the edge array — only ever appended
to since the constructor — ends up holding every edge of a single run
exactly twice (stated for builds whose scanned files have pairwise
distinct root-relative ids). -/
theorem c10_edges_accumulate (fs : Fs) (s : ParserSettings) (g1 : DependencyGraph)
    (h1 : parse freshGraph fs s = .ok g1)
    (hnodup : ((scanRoot fs s).map (fun f => pathRelative s.rootDir f)).Nodup) :
    parse g1 fs s = .ok { nodes := g1.nodes, edges := g1.edges ++ g1.edges } := by
  have h1' : Except.map detectCircularDependencies
      ((scanRoot fs s).foldlM (pass2Step fs s)
        { nodes := pass1 s (scanRoot fs s) freshGraph.nodes, edges := freshGraph.edges }) =
      .ok g1 := h1
  cases hf : (scanRoot fs s).foldlM (pass2Step fs s)
      { nodes := pass1 s (scanRoot fs s) freshGraph.nodes, edges := freshGraph.edges } with
  | error e =>
    rw [hf] at h1'
    exact absurd h1' (by simp [Except.map])
  | ok gPre =>
    rw [hf] at h1'
    simp only [Except.map, Except.ok.injEq] at h1'
    have hnodes1 : g1.nodes = gPre.nodes := by
      rw [← h1']
      rfl
    have hedges1 : g1.edges = gPre.edges.map (fun e =>
        if (e.source, e.target) ∈ (cycleScan gPre).circularPairs then
          { e with circular := true } else e) := by
      rw [← h1']
      rfl
    have hkeysPre : gPre.nodes.map Prod.fst =
        (pass1 s (scanRoot fs s) freshGraph.nodes).map Prod.fst :=
      foldlM_keys fs s (scanRoot fs s) _ gPre hf
    have hkeys1 : g1.nodes.map Prod.fst =
        (scanRoot fs s).map (fun f => pathRelative s.rootDir f) := by
      rw [hnodes1, hkeysPre]
      have hfr := pass1_keys_fresh s (scanRoot fs s)
        ([] : List (String × DependencyNode)) (fun f _ => rfl) hnodup
      simpa using hfr
    have hp1 : pass1 s (scanRoot fs s) g1.nodes =
        pass1 s (scanRoot fs s) ([] : List (String × DependencyNode)) :=
      pass1_eq_of_keys s (scanRoot fs s) g1.nodes hkeys1 hnodup
    have hf' : (scanRoot fs s).foldlM (pass2Step fs s)
        { nodes := pass1 s (scanRoot fs s) ([] : List (String × DependencyNode)),
          edges := ([] : List DependencyEdge) } = .ok gPre := hf
    have hrun2 : (scanRoot fs s).foldlM (pass2Step fs s)
        { nodes := pass1 s (scanRoot fs s) ([] : List (String × DependencyNode)),
          edges := g1.edges } =
        .ok { nodes := gPre.nodes, edges := g1.edges ++ gPre.edges } := by
      rw [foldlM_shift fs s (scanRoot fs s)
        { nodes := pass1 s (scanRoot fs s) ([] : List (String × DependencyNode)),
          edges := g1.edges }]
      show ((scanRoot fs s).foldlM (pass2Step fs s)
        { nodes := pass1 s (scanRoot fs s) ([] : List (String × DependencyNode)),
          edges := ([] : List DependencyEdge) }).map _ = _
      rw [hf']
      rfl
    show Except.map detectCircularDependencies
        ((scanRoot fs s).foldlM (pass2Step fs s)
          { nodes := pass1 s (scanRoot fs s) g1.nodes, edges := g1.edges }) = _
    rw [hp1, hrun2]
    simp only [Except.map, Except.ok.injEq]
    have hscan : cycleScan { nodes := gPre.nodes, edges := g1.edges ++ gPre.edges } =
        cycleScan gPre :=
      cycleScan_edges_congr gPre { nodes := gPre.nodes, edges := g1.edges ++ gPre.edges } rfl
    show ({ nodes := gPre.nodes,
            edges := (g1.edges ++ gPre.edges).map (fun e =>
              if (e.source, e.target) ∈
                  (cycleScan { nodes := gPre.nodes,
                               edges := g1.edges ++ gPre.edges }).circularPairs
                then { e with circular := true } else e) } : DependencyGraph) =
      { nodes := g1.nodes, edges := g1.edges ++ g1.edges }
    rw [hscan, List.map_append]
    have hmark1 : g1.edges.map (fun e =>
        if (e.source, e.target) ∈ (cycleScan gPre).circularPairs then
          { e with circular := true } else e) = g1.edges := by
      rw [hedges1]
      exact mark_map_idem (cycleScan gPre).circularPairs gPre.edges
    rw [hmark1, ← hedges1, hnodes1]

theorem c10_edges_accumulate_witness :
    parse freshGraph fsSelf sSelf = .ok gSelf ∧
      ((scanRoot fsSelf sSelf).map (fun f => pathRelative sSelf.rootDir f)).Nodup ∧
      parse gSelf fsSelf sSelf = .ok { nodes := gSelf.nodes, edges := gSelf.edges ++ gSelf.edges } :=
  ⟨by decide, by decide, c10_edges_accumulate fsSelf sSelf gSelf (by decide) (by decide)⟩
